import Mathlib

/-!
Verification of the Utgard/Mali U-interleaved tiling codec implemented in
`src/mesalib/src/panfrost/shared/pan_tiling.c`.

The shallow embedding models a byte-addressed buffer as a total function
`Nat → Nat` (address to byte value).  The tiled destination buffer and the
linear source buffer are kept as two separate memories, which makes the
caller contract of non-overlapping buffers intrinsic.  Addresses are modelled
as natural numbers: the C code computes them in `unsigned` arithmetic, and
the trusted-caller contract (all accesses in bounds of real allocations)
rules out wrap-around, so no `% 2^32` reduction arises on addresses.

Each definition mirrors one function or macro of the C file; the loop nests
are translated into `List.foldl` over `List.range`, preserving iteration
order exactly (rows outermost, pixels within a row left to right).
-/

/-- A byte-addressed memory: address to byte value. -/
abbrev Memory : Type := Nat → Nat

/-- Copying one `elem`-byte pixel value: `*(pixel_t *)(dst + dstA) =
*(pixel_t *)(src + srcA)` for non-overlapping `dst`/`src`, i.e. `elem`
bytes of `src` starting at `srcA` replace the bytes of `dst` at
`[dstA, dstA + elem)`. -/
def copyElem (elem : Nat) (dst : Memory) (dstA : Nat) (src : Memory) (srcA : Nat) : Memory :=
  fun a => if dstA ≤ a ∧ a < dstA + elem then src (srcA + (a - dstA)) else dst a

/-- A sequence of `elem`-byte pixel copies, each given as
(destination address, source address), all reading from the fixed memory
`src`, applied in list order to `m`. -/
def applyWrites (elem : Nat) (src : Memory) (ws : List (Nat × Nat)) (m : Memory) : Memory :=
  ws.foldl (fun m w => copyElem elem m w.1 src w.2) m

/-- The `bit_duplication[16]` table of pan_tiling.c (lines 86-103): the low
nibble of a Y coordinate with every bit duplicated over two adjacent
positions. -/
def bit_duplication (n : Nat) : Nat :=
  [0b00000000, 0b00000011, 0b00001100, 0b00001111,
   0b00110000, 0b00110011, 0b00111100, 0b00111111,
   0b11000000, 0b11000011, 0b11001100, 0b11001111,
   0b11110000, 0b11110011, 0b11111100, 0b11111111].getD n 0

/-- The `space_4[16]` table of pan_tiling.c (lines 107-124): the bits of a
nibble spaced out to every other position. -/
def space_4 (n : Nat) : Nat :=
  [0b0000000, 0b0000001, 0b0000100, 0b0000101,
   0b0010000, 0b0010001, 0b0010100, 0b0010101,
   0b1000000, 0b1000001, 0b1000100, 0b1000101,
   0b1010000, 0b1010001, 0b1010100, 0b1010101].getD n 0

/-- `#define TILE_WIDTH 16` -/
def TILE_WIDTH : Nat := 16

/-- `#define TILE_HEIGHT 16` -/
def TILE_HEIGHT : Nat := 16

/-- `#define PIXELS_PER_TILE (TILE_WIDTH * TILE_HEIGHT)` -/
def PIXELS_PER_TILE : Nat := TILE_WIDTH * TILE_HEIGHT

/-- Mesa's `DIV_ROUND_UP(A, B) = ((A) + (B) - 1) / (B)`. -/
def DIV_ROUND_UP (a b : Nat) : Nat := (a + b - 1) / b

/-- The fields of `util_format_description` that pan_tiling.c reads:
`desc->block.bits`, `desc->block.width`, `desc->block.height`.  The format
lookup itself is an external service (spec section 3), so the descriptor is
passed by value. -/
structure util_format_block where
  bits : Nat
  width : Nat
  height : Nat

/-- The destination (tiled-side) byte address computed by
`TILED_UNALIGNED_TYPE` (pan_tiling.c lines 208-220) for the pixel with
absolute coordinates `p`:

`block_y = y & ~mask` (for natural `y` this is clearing the low
`tshift` bits, i.e. `(y >>> tshift) <<< tshift`),
`block_start_s = block_y * dst_stride`,
`block_x_s = (x >> tile_shift) * (1 << (tile_shift * 2))`,
`index = expanded_y ^ space_4[x & mask]` with
`expanded_y = bit_duplication[y & mask]`, and the destination is
`dst + block_start_s + sizeof(pixel_t) * (block_x_s + index)`. -/
def destAddr (elem tshift dS : Nat) (p : Nat × Nat) : Nat :=
  let mask := (1 <<< tshift) - 1
  let block_y := (p.2 >>> tshift) <<< tshift
  let block_start_s := block_y * dS
  let expanded_y := bit_duplication (p.2 &&& mask)
  let block_x_s := (p.1 >>> tshift) * (1 <<< (tshift * 2))
  let index := expanded_y ^^^ space_4 (p.1 &&& mask)
  block_start_s + elem * (block_x_s + index)

/-- `TILED_UNALIGNED_TYPE(pixel_t, is_store, tile_shift)` (pan_tiling.c
lines 208-227), with `elem = sizeof(pixel_t)`.  The first memory is the
tiled buffer (the macro's `dst`), the second the linear buffer (the macro's
`src`); `srcBase` is the byte offset of the `src` pointer the caller passed
(the public entry points pass `OFFSET`-shifted pointers).  The per-pixel
linear address is `source_start + sizeof(pixel_t) * src_x` with
`source_start = src_y * src_stride`; `is_store` selects which side is
written, exactly as `outp`/`inp` do. -/
def tiled_unaligned_access (elem tshift : Nat) (is_store : Bool)
    (dstM srcM : Memory) (srcBase sx sy w h dS sS : Nat) : Memory × Memory :=
  (List.range h).foldl (fun ms src_y =>
    (List.range w).foldl (fun ms src_x =>
      let sourceA := srcBase + src_y * sS + elem * src_x
      let destA := destAddr elem tshift dS (sx + src_x, sy + src_y)
      if is_store then (copyElem elem ms.1 destA ms.2 sourceA, ms.2)
      else (ms.1, copyElem elem ms.2 sourceA ms.1 destA)) ms) (dstM, srcM)

/-- `TILED_UNALIGNED_TYPES(store, shift)` (pan_tiling.c lines 229-240):
dispatch on `bpp` to the five `pixel_t` instantiations; an unknown `bpp`
matches no branch and performs no access. -/
def tiled_unaligned_types (bpp shift : Nat) (is_store : Bool)
    (dstM srcM : Memory) (srcBase sx sy w h dS sS : Nat) : Memory × Memory :=
  if bpp = 8 then tiled_unaligned_access 1 shift is_store dstM srcM srcBase sx sy w h dS sS
  else if bpp = 16 then tiled_unaligned_access 2 shift is_store dstM srcM srcBase sx sy w h dS sS
  else if bpp = 32 then tiled_unaligned_access 4 shift is_store dstM srcM srcBase sx sy w h dS sS
  else if bpp = 64 then tiled_unaligned_access 8 shift is_store dstM srcM srcBase sx sy w h dS sS
  else if bpp = 128 then tiled_unaligned_access 16 shift is_store dstM srcM srcBase sx sy w h dS sS
  else (dstM, srcM)

/-- `panfrost_access_tiled_image_generic` (pan_tiling.c lines 242-267):
block-compressed formats (`desc->block.width > 1`) first convert `w`,`h`
to block units with `DIV_ROUND_UP` and use tile shift 2, other formats use
tile shift 4. -/
def panfrost_access_tiled_image_generic (dstM srcM : Memory) (srcBase sx sy w h dS sS : Nat)
    (desc : util_format_block) (is_store : Bool) : Memory × Memory :=
  let bpp := desc.bits
  if desc.width > 1 then
    tiled_unaligned_types bpp 2 is_store dstM srcM srcBase sx sy
      (DIV_ROUND_UP w desc.width) (DIV_ROUND_UP h desc.height) dS sS
  else
    tiled_unaligned_types bpp 4 is_store dstM srcM srcBase sx sy w h dS sS

/-- `TILED_STORE_TYPE(pixel_t, shift)` (pan_tiling.c lines 177-206), i.e.
`panfrost_store_tiled_image_<pixel_t>` with `sizeof(pixel_t) = 1 << shift`.
The C parameters `sx, sy, w, h` are `uint16_t`, so the caller's values are
narrowed mod 2^16 on entry (modelled by the leading `% 65536` reductions).
`dest_start = (sx >> 4) * PIXELS_PER_TILE * sizeof(pixel_t)`; per row,
`uint16_t block_y = y & ~0x0f` — the loop variable `y` is an `int` that can
exceed 0xFFFF when `sy + h > 0x10000`, and the `uint16_t` store truncates
it mod 2^16, hence the `% 65536` on `block_y`;
`expanded_y = bit_duplication[y & 0xF] << shift`; the group loop
`for (; source < source_end; dest += PIXELS_PER_TILE << shift)` runs
`DIV_ROUND_UP w 16` times because `source` advances by 16 pixels per
iteration and is rechecked only between groups; the unrolled inner loop
writes pixel `i` of the group at `dest + (expanded_y ^ (space_4[i] << shift))`
while `source` walks the row linearly. -/
def panfrost_store_tiled_image_pixel (shift : Nat) (dstM srcM : Memory)
    (srcBase sx sy w h dS sS : Nat) : Memory :=
  let sx := sx % 65536
  let sy := sy % 65536
  let w := w % 65536
  let h := h % 65536
  let elem := 1 <<< shift
  let dest_start := (sx >>> 4) * PIXELS_PER_TILE * elem
  (List.range h).foldl (fun m src_y =>
    let y := sy + src_y
    let block_y := ((y >>> 4) <<< 4) % 65536
    let row_dest := dest_start + block_y * dS
    let source_start := srcBase + src_y * sS
    let expanded_y := bit_duplication (y &&& 0xF) <<< shift
    (List.range (DIV_ROUND_UP w 16)).foldl (fun m g =>
      (List.range 16).foldl (fun m i =>
        let index := expanded_y ^^^ (space_4 i <<< shift)
        copyElem elem m (row_dest + g * (PIXELS_PER_TILE <<< shift) + index)
          srcM (source_start + elem * (g * 16 + i))) m) m) dstM

/-- `OFFSET(src, _x, _y)` (pan_tiling.c line 269) as a byte offset from the
original `src` pointer:
`((_y) - orig_y) * src_stride + (((_x) - orig_x) * (bpp / 8))`. -/
def store_off (orig_x orig_y elem sS ax ay : Nat) : Nat :=
  (ay - orig_y) * sS + (ax - orig_x) * elem

/-- The final fast-path dispatch of `panfrost_store_tiled_image`
(pan_tiling.c lines 350-359): select the `TILED_STORE_TYPE` instantiation
by `bpp`; an unknown `bpp` matches no branch.  The call site passes the
splitter's `unsigned x, y, w, h` to `uint16_t` parameters; that implicit
narrowing is the `% 65536` parameter reduction performed on entry by
`panfrost_store_tiled_image_pixel`. -/
def store_interior_dispatch (bpp : Nat) (dstM srcM : Memory)
    (srcBase x y w h dS sS : Nat) : Memory :=
  if bpp = 8 then panfrost_store_tiled_image_pixel 0 dstM srcM srcBase x y w h dS sS
  else if bpp = 16 then panfrost_store_tiled_image_pixel 1 dstM srcM srcBase x y w h dS sS
  else if bpp = 32 then panfrost_store_tiled_image_pixel 2 dstM srcM srcBase x y w h dS sS
  else if bpp = 64 then panfrost_store_tiled_image_pixel 3 dstM srcM srcBase x y w h dS sS
  else if bpp = 128 then panfrost_store_tiled_image_pixel 4 dstM srcM srcBase x y w h dS sS
  else dstM

/-- Steps 4-5 of `panfrost_store_tiled_image` (pan_tiling.c lines 339-359):
the right partial column (if `last_full_tile_x != x + w`) through the
generic path, then the fast-path interior dispatch. -/
def store_steps_right (desc : util_format_block) (orig_x orig_y last_full_tile_x : Nat)
    (dstM srcM : Memory) (x y w h dS sS : Nat) : Memory :=
  let elem := desc.bits / 8
  if last_full_tile_x ≠ x + w then
    let dist := (x + w) - last_full_tile_x
    let dstM2 := (panfrost_access_tiled_image_generic dstM srcM
        (store_off orig_x orig_y elem sS last_full_tile_x y)
        last_full_tile_x y dist h dS sS desc true).1
    store_interior_dispatch desc.bits dstM2 srcM
      (store_off orig_x orig_y elem sS x y) x y (w - dist) h dS sS
  else
    store_interior_dispatch desc.bits dstM srcM
      (store_off orig_x orig_y elem sS x y) x y w h dS sS

/-- Step 3 of `panfrost_store_tiled_image` (pan_tiling.c lines 324-337):
the left partial column, with the early return when it consumes the whole
width (`dist == w`). -/
def store_steps_left (desc : util_format_block)
    (orig_x orig_y first_full_tile_x last_full_tile_x : Nat)
    (dstM srcM : Memory) (x y w h dS sS : Nat) : Memory :=
  let elem := desc.bits / 8
  if first_full_tile_x ≠ x then
    let dist := min (first_full_tile_x - x) w
    let dstM2 := (panfrost_access_tiled_image_generic dstM srcM
        (store_off orig_x orig_y elem sS x y) x y dist h dS sS desc true).1
    if dist = w then dstM2
    else store_steps_right desc orig_x orig_y last_full_tile_x dstM2 srcM
      (x + dist) y (w - dist) h dS sS
  else
    store_steps_right desc orig_x orig_y last_full_tile_x dstM srcM x y w h dS sS

/-- Step 2 of `panfrost_store_tiled_image` (pan_tiling.c lines 313-322):
the bottom partial strip (if `last_full_tile_y != y + h`). -/
def store_steps_bottom (desc : util_format_block)
    (orig_x orig_y first_full_tile_x last_full_tile_x last_full_tile_y : Nat)
    (dstM srcM : Memory) (x y w h dS sS : Nat) : Memory :=
  let elem := desc.bits / 8
  if last_full_tile_y ≠ y + h then
    let dist := (y + h) - last_full_tile_y
    let dstM2 := (panfrost_access_tiled_image_generic dstM srcM
        (store_off orig_x orig_y elem sS x last_full_tile_y)
        x last_full_tile_y w dist dS sS desc true).1
    store_steps_left desc orig_x orig_y first_full_tile_x last_full_tile_x dstM2 srcM
      x y w (h - dist) dS sS
  else
    store_steps_left desc orig_x orig_y first_full_tile_x last_full_tile_x dstM srcM
      x y w h dS sS

/-- `panfrost_store_tiled_image` (pan_tiling.c lines 271-360): compressed
formats go straight through the generic path; otherwise the tile boundaries
are computed and the rectangle is split: top partial strip (with its early
return when `dist == h`), then bottom, left, right and the fast-path
interior via the step helpers above. -/
def panfrost_store_tiled_image (dstM srcM : Memory) (x y w h dS sS : Nat)
    (desc : util_format_block) : Memory :=
  if desc.width > 1 then
    (panfrost_access_tiled_image_generic dstM srcM 0 x y w h dS sS desc true).1
  else
    let elem := desc.bits / 8
    let first_full_tile_x := DIV_ROUND_UP x TILE_WIDTH * TILE_WIDTH
    let first_full_tile_y := DIV_ROUND_UP y TILE_HEIGHT * TILE_HEIGHT
    let last_full_tile_x := (x + w) / TILE_WIDTH * TILE_WIDTH
    let last_full_tile_y := (y + h) / TILE_HEIGHT * TILE_HEIGHT
    if first_full_tile_y ≠ y then
      let dist := min (first_full_tile_y - y) h
      let dstM2 := (panfrost_access_tiled_image_generic dstM srcM
          (store_off x y elem sS x y) x y w dist dS sS desc true).1
      if dist = h then dstM2
      else store_steps_bottom desc x y first_full_tile_x last_full_tile_x last_full_tile_y
        dstM2 srcM x (y + dist) w (h - dist) dS sS
    else store_steps_bottom desc x y first_full_tile_x last_full_tile_x last_full_tile_y
      dstM srcM x y w h dS sS

/-- `panfrost_load_tiled_image` (pan_tiling.c lines 362-372): a single
invocation of the generic routine over the whole rectangle with the tiled
buffer in the `dst` (first) slot, the linear destination in the `src`
(second) slot, the strides swapped accordingly and `is_store = false`; the
written linear buffer is the second component. -/
def panfrost_load_tiled_image (dstM srcM : Memory) (x y w h dS sS : Nat)
    (desc : util_format_block) : Memory :=
  (panfrost_access_tiled_image_generic srcM dstM 0 x y w h sS dS desc false).2

/-- The pixels (or blocks) of the rectangle, in the row-major order in
which every loop of the codec visits them: absolute coordinates. -/
def pixList (sx sy w h : Nat) : List (Nat × Nat) :=
  (List.range h).flatMap (fun j => (List.range w).map (fun i => (sx + i, sy + j)))

/-- A rectangle in pixel (or block) coordinates, as handled by the region
splitter. -/
structure Rect where
  x : Nat
  y : Nat
  w : Nat
  h : Nat

/-- Membership of an absolute coordinate pair in a rectangle. -/
def inRect (r : Rect) (p : Nat × Nat) : Prop :=
  r.x ≤ p.1 ∧ p.1 < r.x + r.w ∧ r.y ≤ p.2 ∧ p.2 < r.y + r.h

instance (r : Rect) (p : Nat × Nat) : Decidable (inRect r p) := by
  unfold inRect; infer_instance

/-- Two rectangles with no common pixel. -/
def rectDisjoint (r₁ r₂ : Rect) : Prop :=
  ∀ p : Nat × Nat, ¬(inRect r₁ p ∧ inRect r₂ p)

/-- A rectangle whose origin and extents are all tile-aligned. -/
def rectAligned (r : Rect) : Prop :=
  r.x % 16 = 0 ∧ r.y % 16 = 0 ∧ r.w % 16 = 0 ∧ r.h % 16 = 0

/-- Steps 4-5 of the splitter as rectangles (pan_tiling.c lines 339-359):
the right partial column appended to the generic-path list, the remaining
rectangle as the fast-path interior. -/
def store_decomposition_right (last_full_tile_x x y w h : Nat) (acc : List Rect) :
    List Rect × List Rect :=
  if last_full_tile_x ≠ x + w then
    let dist := (x + w) - last_full_tile_x
    (acc ++ [Rect.mk last_full_tile_x y dist h], [Rect.mk x y (w - dist) h])
  else (acc, [Rect.mk x y w h])

/-- Step 3 of the splitter as rectangles (pan_tiling.c lines 324-337),
with the early return when the left column consumes the whole width. -/
def store_decomposition_left (first_full_tile_x last_full_tile_x x y w h : Nat)
    (acc : List Rect) : List Rect × List Rect :=
  if first_full_tile_x ≠ x then
    let dist := min (first_full_tile_x - x) w
    if dist = w then (acc ++ [Rect.mk x y dist h], [])
    else store_decomposition_right last_full_tile_x (x + dist) y (w - dist) h
      (acc ++ [Rect.mk x y dist h])
  else store_decomposition_right last_full_tile_x x y w h acc

/-- Step 2 of the splitter as rectangles (pan_tiling.c lines 313-322). -/
def store_decomposition_bottom (first_full_tile_x last_full_tile_x last_full_tile_y
    x y w h : Nat) (acc : List Rect) : List Rect × List Rect :=
  if last_full_tile_y ≠ y + h then
    let dist := (y + h) - last_full_tile_y
    store_decomposition_left first_full_tile_x last_full_tile_x x y w (h - dist)
      (acc ++ [Rect.mk x last_full_tile_y w dist])
  else store_decomposition_left first_full_tile_x last_full_tile_x x y w h acc

/-- The sub-rectangles processed by `panfrost_store_tiled_image` for a
non-compressed format, mirroring the splitter's control flow (pan_tiling.c
lines 289-360): the first list holds the rectangles handed to the generic
path in execution order (top, bottom, left, right), the second the
rectangle handed to the fast-path interior (empty when an early return
fires before the interior step). -/
def store_decomposition (x y w h : Nat) : List Rect × List Rect :=
  let first_full_tile_x := DIV_ROUND_UP x TILE_WIDTH * TILE_WIDTH
  let first_full_tile_y := DIV_ROUND_UP y TILE_HEIGHT * TILE_HEIGHT
  let last_full_tile_x := (x + w) / TILE_WIDTH * TILE_WIDTH
  let last_full_tile_y := (y + h) / TILE_HEIGHT * TILE_HEIGHT
  if first_full_tile_y ≠ y then
    let dist := min (first_full_tile_y - y) h
    if dist = h then ([Rect.mk x y w dist], [])
    else store_decomposition_bottom first_full_tile_x last_full_tile_x last_full_tile_y
      x (y + dist) w (h - dist) [Rect.mk x y w dist]
  else store_decomposition_bottom first_full_tile_x last_full_tile_x last_full_tile_y
    x y w h []

/-- Width of the rectangle in the units actually iterated by the generic
routine: blocks for block-compressed formats, pixels otherwise
(pan_tiling.c lines 253-254). -/
def blockW (desc : util_format_block) (w : Nat) : Nat :=
  if desc.width > 1 then DIV_ROUND_UP w desc.width else w

/-- Height counterpart of `blockW` (pan_tiling.c line 255). -/
def blockH (desc : util_format_block) (h : Nat) : Nat :=
  if desc.width > 1 then DIV_ROUND_UP h desc.height else h

/-- The tile shift used by the generic routine for the format: 2 for
block-compressed formats, 4 otherwise (pan_tiling.c lines 257-265). -/
def tshiftOf (desc : util_format_block) : Nat :=
  if desc.width > 1 then 2 else 4

/-- The pixel copy performed by the store direction for the pixel (or
block) at absolute coordinates `p`: destination address in the tiled
buffer, source address in the linear buffer relative to the original
rectangle origin `(ox, oy)`. -/
def storeWrite (elem ts dS sS ox oy : Nat) (p : Nat × Nat) : Nat × Nat :=
  (destAddr elem ts dS p, (p.2 - oy) * sS + elem * (p.1 - ox))

/-- The pixel copy performed by the load direction: destination address in
the linear buffer, source address in the tiled buffer. -/
def loadWrite (elem ts dS sS ox oy : Nat) (p : Nat × Nat) : Nat × Nat :=
  ((p.2 - oy) * sS + elem * (p.1 - ox), destAddr elem ts dS p)

/-- The tiled-buffer byte locations belonging to the rectangle's pixels
(blocks): the store direction may write exactly these. -/
def storeFootprint (elem ts dS x y w h : Nat) (a : Nat) : Prop :=
  ∃ p ∈ pixList x y w h, ∃ k < elem, a = destAddr elem ts dS p + k

/-- The linear-buffer byte locations belonging to the rectangle's pixels
(blocks): the load direction may write exactly these. -/
def loadFootprint (elem x y w h sS : Nat) (a : Nat) : Prop :=
  ∃ p ∈ pixList x y w h, ∃ k < elem, a = (p.2 - y) * sS + elem * (p.1 - x) + k

instance (elem ts dS x y w h a : Nat) : Decidable (storeFootprint elem ts dS x y w h a) := by
  unfold storeFootprint; infer_instance

instance (elem x y w h sS a : Nat) : Decidable (loadFootprint elem x y w h sS a) := by
  unfold loadFootprint; infer_instance

/-- Recover the Y nibble from a within-tile index
`bit_duplication ly ^^^ space_4 lx`: in the interleaving pattern
`| y3 | x3^y3 | y2 | x2^y2 | y1 | x1^y1 | y0 | x0^y0 |` (pan_tiling.c
lines 50-64) the odd bit positions carry the Y bits. -/
def yOfIndex (v : Nat) : Nat :=
  ((v >>> 1) &&& 1) + 2 * ((v >>> 3) &&& 1) + 4 * ((v >>> 5) &&& 1) + 8 * ((v >>> 7) &&& 1)

/-- Recover the X nibble from a within-tile index: even bit position `2i`
carries `x_i ^ y_i`, so `x_i` is the XOR of adjacent bit positions. -/
def xOfIndex (v : Nat) : Nat :=
  ((v ^^^ (v >>> 1)) &&& 1) + 2 * (((v >>> 2) ^^^ (v >>> 3)) &&& 1) +
    4 * (((v >>> 4) ^^^ (v >>> 5)) &&& 1) + 8 * (((v >>> 6) ^^^ (v >>> 7)) &&& 1)

/-! ### Generic lemmas about sequences of pixel copies -/

lemma applyWrites_cons (e : Nat) (src : Memory) (u : Nat × Nat) (ws : List (Nat × Nat))
    (m : Memory) :
    applyWrites e src (u :: ws) m = applyWrites e src ws (copyElem e m u.1 src u.2) := rfl

lemma applyWrites_append (e : Nat) (src : Memory) (l₁ l₂ : List (Nat × Nat)) (m : Memory) :
    applyWrites e src (l₁ ++ l₂) m = applyWrites e src l₂ (applyWrites e src l₁ m) := by
  simp [applyWrites, List.foldl_append]

lemma copyElem_of_notin {e dstA srcA a : Nat} {m src : Memory}
    (h : a < dstA ∨ dstA + e ≤ a) :
    copyElem e m dstA src srcA a = m a := by
  simp only [copyElem]
  rw [if_neg (by omega)]

/-- A byte address outside every destination range is untouched. -/
lemma applyWrites_notin {e : Nat} {src : Memory} {ws : List (Nat × Nat)} {m : Memory} {a : Nat}
    (hws : ∀ u ∈ ws, a < u.1 ∨ u.1 + e ≤ a) :
    applyWrites e src ws m a = m a := by
  induction ws generalizing m with
  | nil => rfl
  | cons u ws ih =>
    rw [applyWrites_cons, ih (fun v hv => hws v (List.mem_cons_of_mem _ hv)),
      copyElem_of_notin (hws u (List.mem_cons_self _ _))]

/-- If every pair of copies in the list either targets disjoint byte ranges
or is the identical copy, then after the whole sequence each copy's
destination range holds its source bytes. -/
lemma applyWrites_mem {e : Nat} {src : Memory} {ws : List (Nat × Nat)} {m : Memory}
    {u : Nat × Nat} {k : Nat} (hmem : u ∈ ws) (hk : k < e)
    (hcompat : ∀ v ∈ ws, v.1 < u.1 + e ∧ u.1 < v.1 + e → v = u) :
    applyWrites e src ws m (u.1 + k) = src (u.2 + k) := by
  induction ws generalizing m with
  | nil => cases hmem
  | cons v ws ih =>
    rw [applyWrites_cons]
    rcases List.mem_cons.mp hmem with huv | hmem'
    · subst huv
      by_cases hex : ∃ v' ∈ ws, v'.1 < u.1 + e ∧ u.1 < v'.1 + e
      · obtain ⟨v', hv', hov⟩ := hex
        have hveq : v' = u := hcompat v' (List.mem_cons_of_mem _ hv') hov
        have hmem2 : u ∈ ws := hveq ▸ hv'
        exact ih hmem2 (fun v hv hov => hcompat v (List.mem_cons_of_mem _ hv) hov)
      · push_neg at hex
        rw [applyWrites_notin (fun v' hv' => by have := hex v' hv'; omega)]
        simp only [copyElem]
        rw [if_pos ⟨by omega, by omega⟩]
        congr 1
        omega
    · exact ih hmem' (fun v hv hov => hcompat v (List.mem_cons_of_mem _ hv) hov)

/-- Two sequences of copies with the same member set and pairwise
disjoint-or-identical destination ranges produce the same memory. -/
lemma applyWrites_eq_of_mem_iff {e : Nat} {src : Memory} {ws₁ ws₂ : List (Nat × Nat)}
    {m : Memory} (hiff : ∀ u, u ∈ ws₁ ↔ u ∈ ws₂)
    (hcompat : ∀ u ∈ ws₁, ∀ v ∈ ws₁, v.1 < u.1 + e ∧ u.1 < v.1 + e → v = u) :
    applyWrites e src ws₁ m = applyWrites e src ws₂ m := by
  funext a
  by_cases hex : ∃ u ∈ ws₁, u.1 ≤ a ∧ a < u.1 + e
  · obtain ⟨u, hu, h1, h2⟩ := hex
    have ha : a = u.1 + (a - u.1) := by omega
    rw [ha, applyWrites_mem hu (by omega) (hcompat u hu),
      applyWrites_mem ((hiff u).mp hu) (by omega)
        (fun v hv hov => hcompat u hu v ((hiff v).mpr hv) hov)]
  · push_neg at hex
    rw [applyWrites_notin (fun u hu => by have := hex u hu; omega),
      applyWrites_notin (fun u hu => by have := hex u ((hiff u).mpr hu); omega)]

/-! ### The pixel enumeration -/

lemma mem_pixList {sx sy w h : Nat} {p : Nat × Nat} :
    p ∈ pixList sx sy w h ↔ sx ≤ p.1 ∧ p.1 < sx + w ∧ sy ≤ p.2 ∧ p.2 < sy + h := by
  obtain ⟨a, b⟩ := p
  simp only [pixList, List.mem_flatMap, List.mem_map, List.mem_range, Prod.mk.injEq]
  constructor
  · rintro ⟨j, hj, i, hi, rfl, rfl⟩
    omega
  · rintro ⟨h1, h2, h3, h4⟩
    exact ⟨b - sy, by omega, a - sx, by omega, by omega, by omega⟩

lemma pixList_succ_h (sx sy w h : Nat) :
    pixList sx sy w (h + 1)
      = pixList sx sy w h ++ (List.range w).map (fun i => (sx + i, sy + h)) := by
  simp [pixList, List.range_succ]

/-! ### Loop nests as write sequences -/

/-- The inner `store` loop shape: a fold that copies into the first memory
and never changes the second. -/
lemma foldl_copy_fst {α : Type} (e : Nat) (l : List α) (f g : α → Nat) (ms : Memory × Memory) :
    l.foldl (fun ms a => (copyElem e ms.1 (f a) ms.2 (g a), ms.2)) ms
      = (applyWrites e ms.2 (l.map fun a => (f a, g a)) ms.1, ms.2) := by
  induction l generalizing ms with
  | nil => rfl
  | cons a l ih =>
    rw [List.foldl_cons, ih, List.map_cons, applyWrites_cons]

/-- The inner `load` loop shape: a fold that copies into the second memory
and never changes the first. -/
lemma foldl_copy_snd {α : Type} (e : Nat) (l : List α) (f g : α → Nat) (ms : Memory × Memory) :
    l.foldl (fun ms a => (ms.1, copyElem e ms.2 (f a) ms.1 (g a))) ms
      = (ms.1, applyWrites e ms.1 (l.map fun a => (f a, g a)) ms.2) := by
  induction l generalizing ms with
  | nil => rfl
  | cons a l ih =>
    rw [List.foldl_cons, ih, List.map_cons, applyWrites_cons]

/-- The row/column nest of the store direction as one flat write sequence. -/
lemma rows_fold_fst (e : Nat) (W : Nat → Nat → Nat × Nat) (rows cols : Nat)
    (m s : Memory) :
    (List.range rows).foldl (fun ms j => (List.range cols).foldl (fun ms i =>
        (copyElem e ms.1 (W j i).1 ms.2 (W j i).2, ms.2)) ms) (m, s)
      = (applyWrites e s ((List.range rows).flatMap
          (fun j => (List.range cols).map (fun i => W j i))) m, s) := by
  induction rows generalizing m with
  | zero => rfl
  | succ r ih =>
    rw [List.range_succ, List.foldl_append, List.flatMap_append, ih]
    simp only [List.foldl_cons, List.foldl_nil, List.flatMap_cons, List.flatMap_nil,
      List.append_nil]
    rw [foldl_copy_fst, applyWrites_append]

/-- The row/column nest of the load direction as one flat write sequence. -/
lemma rows_fold_snd (e : Nat) (W : Nat → Nat → Nat × Nat) (rows cols : Nat)
    (m s : Memory) :
    (List.range rows).foldl (fun ms j => (List.range cols).foldl (fun ms i =>
        (ms.1, copyElem e ms.2 (W j i).1 ms.1 (W j i).2)) ms) (m, s)
      = (m, applyWrites e m ((List.range rows).flatMap
          (fun j => (List.range cols).map (fun i => W j i))) s) := by
  induction rows generalizing s with
  | zero => rfl
  | succ r ih =>
    rw [List.range_succ, List.foldl_append, List.flatMap_append, ih]
    simp only [List.foldl_cons, List.foldl_nil, List.flatMap_cons, List.flatMap_nil,
      List.append_nil]
    rw [foldl_copy_snd, applyWrites_append]

/-! ### Bit-level facts about the interleave tables -/

lemma shiftLeft_xor_distrib (a b n : Nat) : (a <<< n) ^^^ (b <<< n) = (a ^^^ b) <<< n := by
  apply Nat.eq_of_testBit_eq
  intro i
  simp only [Nat.testBit_xor, Nat.testBit_shiftLeft]
  cases hni : decide (i ≥ n) <;> simp

set_option maxRecDepth 10000 in
lemma index_recover_16 : ∀ a b : Fin 16,
    yOfIndex (bit_duplication a.val ^^^ space_4 b.val) = a.val ∧
    xOfIndex (bit_duplication a.val ^^^ space_4 b.val) = b.val := by decide

lemma index_lt_16 : ∀ a b : Fin 16, bit_duplication a.val ^^^ space_4 b.val < 256 := by decide

set_option maxRecDepth 10000 in
lemma index_surj_16 : ∀ v : Fin 256, yOfIndex v.val < 16 ∧ xOfIndex v.val < 16 ∧
    bit_duplication (yOfIndex v.val) ^^^ space_4 (xOfIndex v.val) = v.val := by decide

lemma index_recover_4 : ∀ a b : Fin 4,
    yOfIndex (bit_duplication a.val ^^^ space_4 b.val) = a.val ∧
    xOfIndex (bit_duplication a.val ^^^ space_4 b.val) = b.val := by decide

lemma index_lt_4 : ∀ a b : Fin 4, bit_duplication a.val ^^^ space_4 b.val < 16 := by decide

lemma index_inj_16 {a b c d : Nat} (ha : a < 16) (hb : b < 16) (hc : c < 16) (hd : d < 16)
    (h : bit_duplication a ^^^ space_4 b = bit_duplication c ^^^ space_4 d) :
    a = c ∧ b = d := by
  obtain ⟨ha1, ha2⟩ := index_recover_16 ⟨a, ha⟩ ⟨b, hb⟩
  obtain ⟨hc1, hc2⟩ := index_recover_16 ⟨c, hc⟩ ⟨d, hd⟩
  simp only at ha1 ha2 hc1 hc2
  rw [h] at ha1 ha2
  omega

lemma index_inj_4 {a b c d : Nat} (ha : a < 4) (hb : b < 4) (hc : c < 4) (hd : d < 4)
    (h : bit_duplication a ^^^ space_4 b = bit_duplication c ^^^ space_4 d) :
    a = c ∧ b = d := by
  obtain ⟨ha1, ha2⟩ := index_recover_4 ⟨a, ha⟩ ⟨b, hb⟩
  obtain ⟨hc1, hc2⟩ := index_recover_4 ⟨c, hc⟩ ⟨d, hd⟩
  simp only at ha1 ha2 hc1 hc2
  rw [h] at ha1 ha2
  omega

/-- The within-tile index is bounded by the tile size, for both tile
shifts used by the code. -/
lemma index_lt_of_tshift {ts a b : Nat} (hts : ts = 2 ∨ ts = 4)
    (ha : a < 1 <<< ts) (hb : b < 1 <<< ts) :
    bit_duplication a ^^^ space_4 b < 1 <<< (ts * 2) := by
  rcases hts with rfl | rfl
  · exact index_lt_4 ⟨a, ha⟩ ⟨b, hb⟩
  · exact index_lt_16 ⟨a, ha⟩ ⟨b, hb⟩

lemma index_inj_of_tshift {ts a b c d : Nat} (hts : ts = 2 ∨ ts = 4)
    (ha : a < 1 <<< ts) (hb : b < 1 <<< ts) (hc : c < 1 <<< ts) (hd : d < 1 <<< ts)
    (h : bit_duplication a ^^^ space_4 b = bit_duplication c ^^^ space_4 d) :
    a = c ∧ b = d := by
  rcases hts with rfl | rfl
  · exact index_inj_4 ha hb hc hd h
  · exact index_inj_16 ha hb hc hd h

/-! ### The generic routine as a write sequence -/

/-- Unfolded form of `destAddr`, with shifts and masks written as division
and remainder. -/
lemma destAddr_eq (e ts dS : Nat) (p : Nat × Nat) :
    destAddr e ts dS p
      = (p.2 / 2 ^ ts) * 2 ^ ts * dS
        + e * ((p.1 / 2 ^ ts) * (2 ^ ts * 2 ^ ts)
          + (bit_duplication (p.2 % 2 ^ ts) ^^^ space_4 (p.1 % 2 ^ ts))) := by
  have hmask : (1 <<< ts) - 1 = 2 ^ ts - 1 := by rw [Nat.shiftLeft_eq]; ring_nf
  have hpow : (2 : Nat) ^ (ts * 2) = 2 ^ ts * 2 ^ ts := by
    rw [mul_two, pow_add]
  simp only [destAddr, hmask, Nat.and_pow_two_sub_one_eq_mod, Nat.shiftRight_eq_div_pow,
    Nat.shiftLeft_eq, one_mul, hpow]

lemma tua_store_eq (e ts : Nat) (dstM srcM : Memory) (srcBase sx sy w h dS sS : Nat) :
    tiled_unaligned_access e ts true dstM srcM srcBase sx sy w h dS sS
      = (applyWrites e srcM ((pixList sx sy w h).map
          (fun p => (destAddr e ts dS p, srcBase + (p.2 - sy) * sS + e * (p.1 - sx)))) dstM,
         srcM) := by
  have h1 := rows_fold_fst e
      (fun j i => (destAddr e ts dS (sx + i, sy + j), srcBase + j * sS + e * i)) h w dstM srcM
  have h2 : tiled_unaligned_access e ts true dstM srcM srcBase sx sy w h dS sS
      = (List.range h).foldl (fun ms j => (List.range w).foldl (fun ms i =>
          (copyElem e ms.1 (destAddr e ts dS (sx + i, sy + j)) ms.2 (srcBase + j * sS + e * i),
           ms.2)) ms) (dstM, srcM) := rfl
  rw [h2, h1]
  congr 2
  simp only [pixList, List.map_flatMap, List.map_map, Function.comp_def,
    Nat.add_sub_cancel_left]

lemma tua_load_eq (e ts : Nat) (dstM srcM : Memory) (srcBase sx sy w h dS sS : Nat) :
    tiled_unaligned_access e ts false dstM srcM srcBase sx sy w h dS sS
      = (dstM, applyWrites e dstM ((pixList sx sy w h).map
          (fun p => (srcBase + (p.2 - sy) * sS + e * (p.1 - sx), destAddr e ts dS p))) srcM) := by
  have h1 := rows_fold_snd e
      (fun j i => (srcBase + j * sS + e * i, destAddr e ts dS (sx + i, sy + j))) h w dstM srcM
  have h2 : tiled_unaligned_access e ts false dstM srcM srcBase sx sy w h dS sS
      = (List.range h).foldl (fun ms j => (List.range w).foldl (fun ms i =>
          (ms.1, copyElem e ms.2 (srcBase + j * sS + e * i) ms.1
            (destAddr e ts dS (sx + i, sy + j)))) ms) (dstM, srcM) := rfl
  rw [h2, h1]
  congr 2
  simp only [pixList, List.map_flatMap, List.map_map, Function.comp_def,
    Nat.add_sub_cancel_left]

/-! ### The fast path as a write sequence -/

lemma foldl_copy_applyWrites {α : Type} (e : Nat) (s : Memory) (l : List α) (f g : α → Nat)
    (m : Memory) :
    l.foldl (fun m a => copyElem e m (f a) s (g a)) m
      = applyWrites e s (l.map fun a => (f a, g a)) m := by
  rw [applyWrites, List.foldl_map]

lemma foldl_applyWrites_flatMap {α : Type} (e : Nat) (s : Memory) (l : List α)
    (L : α → List (Nat × Nat)) (m : Memory) :
    l.foldl (fun m a => applyWrites e s (L a) m) m = applyWrites e s (l.flatMap L) m := by
  induction l generalizing m with
  | nil => rfl
  | cons a l ih => rw [List.foldl_cons, ih, List.flatMap_cons, applyWrites_append]

lemma flatMap_congr_left {α β : Type} {l : List α} {f g : α → List β}
    (h : ∀ a ∈ l, f a = g a) : l.flatMap f = l.flatMap g := by
  induction l with
  | nil => rfl
  | cons a l ih =>
    rw [List.flatMap_cons, List.flatMap_cons, h a (List.mem_cons_self _ _),
      ih (fun a ha => h a (List.mem_cons_of_mem _ ha))]

lemma flatMap_range_16 {γ : Type} (q : Nat) (F : Nat → γ) :
    (List.range q).flatMap (fun g => (List.range 16).map (fun i => F (16 * g + i)))
      = (List.range (16 * q)).map F := by
  induction q with
  | zero => rfl
  | succ q ih =>
    rw [List.range_succ, List.flatMap_append, ih, Nat.mul_succ, List.range_add,
      List.map_append, List.map_map]
    simp [Function.comp_def]

/-- The tiled-side address computed by the fast path for row `y` and the
`k`-th pixel of the row equals the address the generic path computes for
the same absolute pixel, when the starting column is 16-aligned. -/
lemma fast_dst_eq (shift t dS y k : Nat) :
    ((16 * t) >>> 4) * PIXELS_PER_TILE * (1 <<< shift) + ((y >>> 4) <<< 4) * dS
      + k / 16 * (PIXELS_PER_TILE <<< shift)
      + ((bit_duplication (y &&& 15) <<< shift) ^^^ (space_4 (k % 16) <<< shift))
    = destAddr (1 <<< shift) 4 dS (16 * t + k, y) := by
  have h15 : ∀ x : Nat, x &&& 15 = x % 16 := fun x => Nat.and_pow_two_sub_one_eq_mod x 4
  rw [shiftLeft_xor_distrib, destAddr_eq]
  simp only [Nat.shiftRight_eq_div_pow, Nat.shiftLeft_eq, h15, one_mul,
    PIXELS_PER_TILE, TILE_WIDTH, TILE_HEIGHT]
  norm_num
  have h2 : (16 * t + k) / 16 = t + k / 16 := by omega
  have h3 : (16 * t + k) % 16 = k % 16 := by omega
  rw [h2, h3]
  ring

lemma flatMap_groups_eq {γ : Type} (q : Nat) (W : Nat → Nat → γ) (F : Nat → γ)
    (hWF : ∀ g i, i < 16 → W g i = F (16 * g + i)) :
    (List.range q).flatMap (fun g => (List.range 16).map (fun i => W g i))
      = (List.range (16 * q)).map F := by
  rw [← flatMap_range_16]
  apply flatMap_congr_left
  intro g hg
  apply List.map_congr_left
  intro i hi
  exact hWF g i (List.mem_range.mp hi)

lemma foldl_congr_mem {α β : Type} {l : List α} {f g : β → α → β} {init : β}
    (h : ∀ a ∈ l, ∀ m, f m a = g m a) : l.foldl f init = l.foldl g init := by
  induction l generalizing init with
  | nil => rfl
  | cons a l ih =>
    rw [List.foldl_cons, List.foldl_cons, h a (List.mem_cons_self _ _),
      ih (fun a ha m => h a (List.mem_cons_of_mem _ ha) m)]

/-- On a rectangle whose starting column and width are 16-aligned and whose
coordinates stay inside the `uint16_t` range without the row index crossing
2^16 (so neither the parameter narrowing nor the `block_y` truncation can
fire), the fast-path store routine performs exactly the write sequence of
the generic path over the same rectangle, in the same row-major order. -/
lemma fast_store_eq (shift : Nat) (dstM srcM : Memory) (srcBase sx sy w h dS sS : Nat)
    (hsx : sx % 16 = 0) (hw : w % 16 = 0)
    (hsxB : sx < 65536) (hwB : w < 65536) (hhB : h < 65536) (hsyh : sy + h ≤ 65536) :
    panfrost_store_tiled_image_pixel shift dstM srcM srcBase sx sy w h dS sS
      = applyWrites (1 <<< shift) srcM ((pixList sx sy w h).map
          (fun p => (destAddr (1 <<< shift) 4 dS p,
            srcBase + (p.2 - sy) * sS + (1 <<< shift) * (p.1 - sx)))) dstM := by
  rcases Nat.eq_zero_or_pos h with rfl | hpos
  · simp [panfrost_store_tiled_image_pixel, pixList, applyWrites]
  have hsyB : sy < 65536 := by omega
  obtain ⟨t, rfl⟩ : ∃ t, sx = 16 * t := ⟨sx / 16, by omega⟩
  obtain ⟨q, rfl⟩ : ∃ q, w = 16 * q := ⟨w / 16, by omega⟩
  have hQ : DIV_ROUND_UP (16 * q) 16 = q := by
    simp only [DIV_ROUND_UP]
    omega
  have h2 : panfrost_store_tiled_image_pixel shift dstM srcM srcBase (16 * t) sy (16 * q) h dS sS
      = (List.range h).foldl (fun m j =>
          (List.range (DIV_ROUND_UP (16 * q) 16)).foldl (fun m g =>
            (List.range 16).foldl (fun m i =>
              copyElem (1 <<< shift) m
                (((16 * t) >>> 4) * PIXELS_PER_TILE * (1 <<< shift)
                  + (((sy + j) >>> 4) <<< 4) * dS
                  + g * (PIXELS_PER_TILE <<< shift)
                  + ((bit_duplication ((sy + j) &&& 15) <<< shift) ^^^ (space_4 i <<< shift)))
                srcM (srcBase + j * sS + (1 <<< shift) * (g * 16 + i))) m) m) dstM := by
    simp only [panfrost_store_tiled_image_pixel, Nat.mod_eq_of_lt hsxB,
      Nat.mod_eq_of_lt hsyB, Nat.mod_eq_of_lt hwB, Nat.mod_eq_of_lt hhB]
    apply foldl_congr_mem
    intro j hj m
    rw [List.mem_range] at hj
    have hble : ((sy + j) >>> 4) <<< 4 ≤ sy + j := by
      simp only [Nat.shiftRight_eq_div_pow, Nat.shiftLeft_eq]
      norm_num
      omega
    rw [Nat.mod_eq_of_lt (by omega)]
  rw [h2, hQ]
  simp only [foldl_copy_applyWrites, foldl_applyWrites_flatMap]
  simp only [pixList, List.map_flatMap, List.map_map, Function.comp_def,
    Nat.add_sub_cancel_left]
  refine congrArg (fun L => applyWrites (1 <<< shift) srcM L dstM) ?_
  apply flatMap_congr_left
  intro j hj
  apply flatMap_groups_eq
  intro g i hi
  have e1 : (16 * g + i) / 16 = g := by omega
  have e2 : (16 * g + i) % 16 = i := by omega
  have e3 : g * 16 + i = 16 * g + i := by omega
  have hk := fast_dst_eq shift t dS (sy + j) (16 * g + i)
  rw [e1, e2] at hk
  rw [e3, hk]

/-! ### Sub-calls of the splitter, with OFFSET-shifted source pointers -/

/-- A generic-path sub-call on a sub-rectangle with origin `(a, b)` whose
source pointer was shifted by `OFFSET(src, a, b)` reads every pixel from
the same linear address as a whole-rectangle call with origin `(ox, oy)`
does. -/
lemma subcall_write_eq (e ts dS sS ox oy a b ww hh : Nat) (hox : ox ≤ a) (hoy : oy ≤ b) :
    (pixList a b ww hh).map (fun p => (destAddr e ts dS p,
        store_off ox oy e sS a b + (p.2 - b) * sS + e * (p.1 - a)))
      = (pixList a b ww hh).map (storeWrite e ts dS sS ox oy) := by
  apply List.map_congr_left
  intro p hp
  rw [mem_pixList] at hp
  simp only [store_off, storeWrite, Prod.mk.injEq, true_and]
  have hy : p.2 - oy = (b - oy) + (p.2 - b) := by omega
  have hx : p.1 - ox = (a - ox) + (p.1 - a) := by omega
  rw [hy, hx]
  ring

/-- The generic routine in store direction, for a non-compressed format
with a recognized bit width, as a write sequence. -/
lemma generic_store_writes (desc : util_format_block) (elem : Nat)
    (helem : elem = 1 ∨ elem = 2 ∨ elem = 4 ∨ elem = 8 ∨ elem = 16)
    (hbits : desc.bits = 8 * elem) (hwid : desc.width = 1)
    (dstM srcM : Memory) (srcBase a b ww hh dS sS : Nat) :
    (panfrost_access_tiled_image_generic dstM srcM srcBase a b ww hh dS sS desc true).1
      = applyWrites elem srcM ((pixList a b ww hh).map
          (fun p => (destAddr elem 4 dS p, srcBase + (p.2 - b) * sS + elem * (p.1 - a)))) dstM := by
  simp only [panfrost_access_tiled_image_generic, hwid, hbits, gt_iff_lt, Nat.lt_irrefl,
    if_false]
  rcases helem with rfl | rfl | rfl | rfl | rfl <;>
    · norm_num [tiled_unaligned_types]
      rw [tua_store_eq]
      try norm_num

/-- The fast-path dispatch on a 16-aligned interior rectangle as a write
sequence. -/
lemma interior_store_writes (elem : Nat)
    (helem : elem = 1 ∨ elem = 2 ∨ elem = 4 ∨ elem = 8 ∨ elem = 16)
    (dstM srcM : Memory) (srcBase x y w h dS sS : Nat)
    (hx16 : x % 16 = 0) (hw16 : w % 16 = 0)
    (hxB : x < 65536) (hwB : w < 65536) (hhB : h < 65536) (hyhB : y + h ≤ 65536) :
    store_interior_dispatch (8 * elem) dstM srcM srcBase x y w h dS sS
      = applyWrites elem srcM ((pixList x y w h).map
          (fun p => (destAddr elem 4 dS p, srcBase + (p.2 - y) * sS + elem * (p.1 - x)))) dstM := by
  rcases helem with rfl | rfl | rfl | rfl | rfl <;>
    · norm_num [store_interior_dispatch]
      rw [fast_store_eq _ _ _ _ _ _ _ _ _ _ hx16 hw16 hxB hwB hhB hyhB]
      try simp only [Nat.shiftLeft_eq]
      try norm_num

/-! ### The splitter steps as write sequences -/

/-- Steps 4-5 (right partial column, then fast-path interior) perform
exactly the generic write for every pixel of their rectangle. -/
lemma store_steps_right_writes (desc : util_format_block) (elem : Nat)
    (helem : elem = 1 ∨ elem = 2 ∨ elem = 4 ∨ elem = 8 ∨ elem = 16)
    (hbits : desc.bits = 8 * elem) (hwid : desc.width = 1)
    (ox oy lfx : Nat) (dstM srcM : Memory) (x y w h dS sS : Nat)
    (hlfx16 : lfx % 16 = 0) (hx16 : x % 16 = 0) (hxl : x ≤ lfx) (hlxw : lfx ≤ x + w)
    (hox : ox ≤ x) (hoy : oy ≤ y)
    (hxB : x < 65536) (hwB : w < 65536) (hhB : h < 65536) (hyhB : y + h ≤ 65536) :
    ∃ pl : List (Nat × Nat),
      store_steps_right desc ox oy lfx dstM srcM x y w h dS sS
        = applyWrites elem srcM (pl.map (storeWrite elem 4 dS sS ox oy)) dstM
      ∧ ∀ p : Nat × Nat, p ∈ pl ↔ x ≤ p.1 ∧ p.1 < x + w ∧ y ≤ p.2 ∧ p.2 < y + h := by
  have helem8 : desc.bits / 8 = elem := by omega
  simp only [store_steps_right]
  rw [helem8, hbits]
  by_cases hc : lfx ≠ x + w
  · rw [if_pos hc]
    have hw16 : (w - ((x + w) - lfx)) % 16 = 0 := by omega
    rw [generic_store_writes desc elem helem hbits hwid,
      subcall_write_eq elem 4 dS sS ox oy lfx y _ _ (by omega) hoy,
      interior_store_writes elem helem _ _ _ _ _ _ _ _ _ hx16 hw16
        hxB (by omega) hhB hyhB,
      subcall_write_eq elem 4 dS sS ox oy x y _ _ hox hoy]
    refine ⟨pixList lfx y ((x + w) - lfx) h ++ pixList x y (w - ((x + w) - lfx)) h, ?_, ?_⟩
    · rw [List.map_append, applyWrites_append]
    · intro p
      simp only [List.mem_append, mem_pixList]
      omega
  · rw [if_neg hc]
    have hw16 : w % 16 = 0 := by omega
    rw [interior_store_writes elem helem _ _ _ _ _ _ _ _ _ hx16 hw16
        hxB hwB hhB hyhB,
      subcall_write_eq elem 4 dS sS ox oy x y _ _ hox hoy]
    refine ⟨pixList x y w h, rfl, ?_⟩
    intro p
    simp only [mem_pixList]

/-- Steps 3-5 (left partial column with its early return, then right and
interior) perform exactly the generic write for every pixel of their
rectangle. -/
lemma store_steps_left_writes (desc : util_format_block) (elem : Nat)
    (helem : elem = 1 ∨ elem = 2 ∨ elem = 4 ∨ elem = 8 ∨ elem = 16)
    (hbits : desc.bits = 8 * elem) (hwid : desc.width = 1)
    (ox oy ffx lfx : Nat) (dstM srcM : Memory) (x y w h dS sS : Nat)
    (hffx : ffx = DIV_ROUND_UP x 16 * 16) (hlfx : lfx = (x + w) / 16 * 16)
    (hox : ox ≤ x) (hoy : oy ≤ y)
    (hxwB : x + w ≤ 65536) (hxB : x < 65536) (hwB : w < 65536) (hhB : h < 65536)
    (hyhB : y + h ≤ 65536) :
    ∃ pl : List (Nat × Nat),
      store_steps_left desc ox oy ffx lfx dstM srcM x y w h dS sS
        = applyWrites elem srcM (pl.map (storeWrite elem 4 dS sS ox oy)) dstM
      ∧ ∀ p : Nat × Nat, p ∈ pl ↔ x ≤ p.1 ∧ p.1 < x + w ∧ y ≤ p.2 ∧ p.2 < y + h := by
  have helem8 : desc.bits / 8 = elem := by omega
  have hffb : x ≤ ffx ∧ ffx < x + 16 ∧ ffx % 16 = 0 := by
    simp only [DIV_ROUND_UP] at hffx
    omega
  have hlfb : lfx ≤ x + w ∧ x + w < lfx + 16 ∧ lfx % 16 = 0 := by omega
  simp only [store_steps_left]
  rw [helem8]
  by_cases hc : ffx ≠ x
  · rw [if_pos hc]
    by_cases hdw : min (ffx - x) w = w
    · rw [if_pos hdw, hdw]
      rw [generic_store_writes desc elem helem hbits hwid,
        subcall_write_eq elem 4 dS sS ox oy x y _ _ hox hoy]
      refine ⟨pixList x y w h, rfl, ?_⟩
      intro p
      simp only [mem_pixList]
    · rw [if_neg hdw]
      have hdist : min (ffx - x) w = ffx - x := by omega
      rw [hdist]
      rw [generic_store_writes desc elem helem hbits hwid,
        subcall_write_eq elem 4 dS sS ox oy x y _ _ hox hoy]
      have hxe : x + (ffx - x) = ffx := by omega
      rw [hxe]
      obtain ⟨pl2, heq2, hmem2⟩ := store_steps_right_writes desc elem helem hbits hwid ox oy lfx
        (applyWrites elem srcM ((pixList x y (ffx - x) h).map (storeWrite elem 4 dS sS ox oy)) dstM)
        srcM ffx y (w - (ffx - x)) h dS sS
        (by omega) (by omega) (by omega) (by omega) (by omega) hoy
        (by omega) (by omega) hhB hyhB
      rw [heq2]
      refine ⟨pixList x y (ffx - x) h ++ pl2, ?_, ?_⟩
      · rw [List.map_append, applyWrites_append]
      · intro p
        simp only [List.mem_append, mem_pixList, hmem2]
        omega
  · rw [if_neg hc]
    have hx16 : x % 16 = 0 := by omega
    obtain ⟨pl2, heq2, hmem2⟩ := store_steps_right_writes desc elem helem hbits hwid ox oy lfx
      dstM srcM x y w h dS sS (by omega) hx16 (by omega) (by omega) hox hoy
      hxB hwB hhB hyhB
    exact ⟨pl2, heq2, hmem2⟩

/-- Steps 2-5 (bottom partial strip, then left, right and interior)
perform exactly the generic write for every pixel of their rectangle. -/
lemma store_steps_bottom_writes (desc : util_format_block) (elem : Nat)
    (helem : elem = 1 ∨ elem = 2 ∨ elem = 4 ∨ elem = 8 ∨ elem = 16)
    (hbits : desc.bits = 8 * elem) (hwid : desc.width = 1)
    (ox oy ffx lfx lfy : Nat) (dstM srcM : Memory) (x y w h dS sS : Nat)
    (hffx : ffx = DIV_ROUND_UP x 16 * 16) (hlfx : lfx = (x + w) / 16 * 16)
    (hlfy : lfy = (y + h) / 16 * 16) (hy16 : y % 16 = 0)
    (hox : ox ≤ x) (hoy : oy ≤ y)
    (hxwB : x + w ≤ 65536) (hxB : x < 65536) (hwB : w < 65536) (hhB : h < 65536)
    (hyhB : y + h ≤ 65536) :
    ∃ pl : List (Nat × Nat),
      store_steps_bottom desc ox oy ffx lfx lfy dstM srcM x y w h dS sS
        = applyWrites elem srcM (pl.map (storeWrite elem 4 dS sS ox oy)) dstM
      ∧ ∀ p : Nat × Nat, p ∈ pl ↔ x ≤ p.1 ∧ p.1 < x + w ∧ y ≤ p.2 ∧ p.2 < y + h := by
  have helem8 : desc.bits / 8 = elem := by omega
  have hlfb : lfy ≤ y + h ∧ y + h < lfy + 16 ∧ lfy % 16 = 0 ∧ y ≤ lfy := by omega
  simp only [store_steps_bottom]
  rw [helem8]
  by_cases hc : lfy ≠ y + h
  · rw [if_pos hc]
    rw [generic_store_writes desc elem helem hbits hwid,
      subcall_write_eq elem 4 dS sS ox oy x lfy _ _ hox (by omega)]
    obtain ⟨pl2, heq2, hmem2⟩ := store_steps_left_writes desc elem helem hbits hwid ox oy ffx lfx
      (applyWrites elem srcM
        ((pixList x lfy w ((y + h) - lfy)).map (storeWrite elem 4 dS sS ox oy)) dstM)
      srcM x y w (h - ((y + h) - lfy)) dS sS hffx (by omega) hox hoy
      hxwB hxB hwB (by omega) (by omega)
    rw [heq2]
    refine ⟨pixList x lfy w ((y + h) - lfy) ++ pl2, ?_, ?_⟩
    · rw [List.map_append, applyWrites_append]
    · intro p
      simp only [List.mem_append, mem_pixList, hmem2]
      omega
  · rw [if_neg hc]
    obtain ⟨pl2, heq2, hmem2⟩ := store_steps_left_writes desc elem helem hbits hwid ox oy ffx lfx
      dstM srcM x y w h dS sS hffx hlfx hox hoy hxwB hxB hwB hhB hyhB
    exact ⟨pl2, heq2, hmem2⟩

/-- The whole store entry point for a non-compressed format: the
decomposition performs exactly one generic-equivalent write per pixel of
the original rectangle, each through `storeWrite`. -/
lemma panfrost_store_writes_noncompressed (desc : util_format_block) (elem : Nat)
    (helem : elem = 1 ∨ elem = 2 ∨ elem = 4 ∨ elem = 8 ∨ elem = 16)
    (hbits : desc.bits = 8 * elem) (hwid : desc.width = 1)
    (dstM srcM : Memory) (x y w h dS sS : Nat)
    (hxwB : x + w ≤ 65536) (hxB : x < 65536) (hwB : w < 65536) (hhB : h < 65536)
    (hyhB : y + h ≤ 65536) :
    ∃ pl : List (Nat × Nat),
      panfrost_store_tiled_image dstM srcM x y w h dS sS desc
        = applyWrites elem srcM (pl.map (storeWrite elem 4 dS sS x y)) dstM
      ∧ ∀ p : Nat × Nat, p ∈ pl ↔ x ≤ p.1 ∧ p.1 < x + w ∧ y ≤ p.2 ∧ p.2 < y + h := by
  have helem8 : desc.bits / 8 = elem := by omega
  have hfy : y ≤ DIV_ROUND_UP y 16 * 16 ∧ DIV_ROUND_UP y 16 * 16 < y + 16
      ∧ DIV_ROUND_UP y 16 * 16 % 16 = 0 := by
    simp only [DIV_ROUND_UP]
    omega
  simp only [panfrost_store_tiled_image, hwid, gt_iff_lt, Nat.lt_irrefl, if_false,
    TILE_WIDTH, TILE_HEIGHT]
  rw [helem8]
  by_cases hcy : DIV_ROUND_UP y 16 * 16 ≠ y
  · rw [if_pos hcy]
    by_cases hdh : min (DIV_ROUND_UP y 16 * 16 - y) h = h
    · rw [if_pos hdh, hdh]
      rw [generic_store_writes desc elem helem hbits hwid,
        subcall_write_eq elem 4 dS sS x y x y _ _ le_rfl le_rfl]
      exact ⟨pixList x y w h, rfl, fun p => by simp only [mem_pixList]⟩
    · rw [if_neg hdh]
      have hdist : min (DIV_ROUND_UP y 16 * 16 - y) h = DIV_ROUND_UP y 16 * 16 - y := by
        omega
      rw [hdist, generic_store_writes desc elem helem hbits hwid,
        subcall_write_eq elem 4 dS sS x y x y _ _ le_rfl le_rfl]
      have hye : y + (DIV_ROUND_UP y 16 * 16 - y) = DIV_ROUND_UP y 16 * 16 := by omega
      rw [hye]
      obtain ⟨pl2, heq2, hmem2⟩ := store_steps_bottom_writes desc elem helem hbits hwid x y
        (DIV_ROUND_UP x 16 * 16) ((x + w) / 16 * 16) ((y + h) / 16 * 16)
        (applyWrites elem srcM ((pixList x y w (DIV_ROUND_UP y 16 * 16 - y)).map
          (storeWrite elem 4 dS sS x y)) dstM)
        srcM x (DIV_ROUND_UP y 16 * 16) w (h - (DIV_ROUND_UP y 16 * 16 - y)) dS sS
        rfl (by omega) (by omega) (by omega) le_rfl (by omega)
        hxwB hxB hwB (by omega) (by omega)
      rw [heq2]
      refine ⟨pixList x y w (DIV_ROUND_UP y 16 * 16 - y) ++ pl2, ?_, ?_⟩
      · rw [List.map_append, applyWrites_append]
      · intro p
        simp only [List.mem_append, mem_pixList, hmem2]
        omega
  · rw [if_neg hcy]
    obtain ⟨pl2, heq2, hmem2⟩ := store_steps_bottom_writes desc elem helem hbits hwid x y
      (DIV_ROUND_UP x 16 * 16) ((x + w) / 16 * 16) ((y + h) / 16 * 16)
      dstM srcM x y w h dS sS rfl rfl rfl (by omega) le_rfl le_rfl
      hxwB hxB hwB hhB hyhB
    exact ⟨pl2, heq2, hmem2⟩

/-! ### Disjointness of destination ranges in a sufficiently padded buffer -/

/-- Two element slots of a strided layout `addr = row * S + e * slot` with
`slot < N` and a stride of at least `e * N` bytes occupy disjoint byte
ranges unless row and slot both agree. -/
lemma range_disjoint_of_layout {e S r n r' n' N : Nat}
    (hn : n < N) (hn' : n' < N) (hS : e * N ≤ S)
    (hne : r < r' ∨ (r = r' ∧ n ≠ n') ∨ r' < r) :
    r * S + e * n + e ≤ r' * S + e * n' ∨ r' * S + e * n' + e ≤ r * S + e * n := by
  have key : ∀ a b m m' : Nat, a < b → m < N → m' < N →
      a * S + e * m + e ≤ b * S + e * m' := by
    intro a b m m' hab hm hm'
    have h1 : e * m + e ≤ e * N := by
      calc e * m + e = e * (m + 1) := by ring
        _ ≤ e * N := Nat.mul_le_mul_left e hm
    have h2 : a * S + S ≤ b * S := by
      calc a * S + S = (a + 1) * S := by ring
        _ ≤ b * S := Nat.mul_le_mul_right S hab
    omega
  rcases hne with h | ⟨rfl, h⟩ | h
  · exact Or.inl (key r r' n n' h hn hn')
  · rcases Nat.lt_or_ge n n' with hlt | hge
    · left
      have : e * n + e ≤ e * n' := by
        calc e * n + e = e * (n + 1) := by ring
          _ ≤ e * n' := Nat.mul_le_mul_left e hlt
      omega
    · right
      have hlt : n' < n := by omega
      have : e * n' + e ≤ e * n := by
        calc e * n' + e = e * (n' + 1) := by ring
          _ ≤ e * n := Nat.mul_le_mul_left e hlt
      omega
  · exact Or.inr (key r' r n' n h hn' hn)

/-- With a destination stride big enough for every tile column the
rectangle touches, two distinct pixels of the rectangle are stored to
disjoint `elem`-byte ranges. -/
lemma destAddr_disjoint (elem ts dS x y w h : Nat) (hts : ts = 2 ∨ ts = 4)
    (hpad : elem * (1 <<< ts) * ((x + w - 1) / (1 <<< ts) + 1) ≤ dS)
    {p q : Nat × Nat}
    (hp : x ≤ p.1 ∧ p.1 < x + w ∧ y ≤ p.2 ∧ p.2 < y + h)
    (hq : x ≤ q.1 ∧ q.1 < x + w ∧ y ≤ q.2 ∧ q.2 < y + h)
    (hne : p ≠ q) :
    destAddr elem ts dS p + elem ≤ destAddr elem ts dS q
      ∨ destAddr elem ts dS q + elem ≤ destAddr elem ts dS p := by
  have hpq : p.1 ≠ q.1 ∨ p.2 ≠ q.2 := by
    by_contra hcon
    push_neg at hcon
    exact hne (Prod.ext hcon.1 hcon.2)
  rcases hts with rfl | rfl
  · have hidxp : bit_duplication (p.2 % 4) ^^^ space_4 (p.1 % 4) < 16 :=
      index_lt_4 ⟨p.2 % 4, by omega⟩ ⟨p.1 % 4, by omega⟩
    have hidxq : bit_duplication (q.2 % 4) ^^^ space_4 (q.1 % 4) < 16 :=
      index_lt_4 ⟨q.2 % 4, by omega⟩ ⟨q.1 % 4, by omega⟩
    rw [destAddr_eq, destAddr_eq]
    norm_num
    have hpad4 : elem * 4 * ((x + w - 1) / 4 + 1) ≤ dS := by
      simpa only [show (1 <<< 2 : Nat) = 4 from rfl] using hpad
    have hS : elem * (16 * ((x + w - 1) / 4 + 1)) ≤ 4 * dS := by
      calc elem * (16 * ((x + w - 1) / 4 + 1)) = 4 * (elem * 4 * ((x + w - 1) / 4 + 1)) := by
            ring
        _ ≤ 4 * dS := Nat.mul_le_mul_left 4 hpad4
    have hform : ∀ pp : Nat × Nat,
        pp.2 / 4 * 4 * dS + elem * (pp.1 / 4 * 16
            + (bit_duplication (pp.2 % 4) ^^^ space_4 (pp.1 % 4)))
          = (pp.2 / 4) * (4 * dS) + elem * (pp.1 / 4 * 16
            + (bit_duplication (pp.2 % 4) ^^^ space_4 (pp.1 % 4))) := by
      intro pp
      ring
    rw [hform p, hform q]
    apply range_disjoint_of_layout (N := 16 * ((x + w - 1) / 4 + 1))
    · omega
    · omega
    · exact hS
    · rcases Nat.lt_trichotomy (p.2 / 4) (q.2 / 4) with hr | hr | hr
      · exact Or.inl hr
      · refine Or.inr (Or.inl ⟨hr, ?_⟩)
        intro heq
        by_cases hx4 : p.1 / 4 = q.1 / 4
        · rw [hx4] at heq
          have hidx : bit_duplication (p.2 % 4) ^^^ space_4 (p.1 % 4)
              = bit_duplication (q.2 % 4) ^^^ space_4 (q.1 % 4) := by omega
          obtain ⟨hy4, hx4'⟩ := index_inj_4 (by omega) (by omega) (by omega) (by omega) hidx
          omega
        · omega
      · exact Or.inr (Or.inr hr)
  · have hidxp : bit_duplication (p.2 % 16) ^^^ space_4 (p.1 % 16) < 256 :=
      index_lt_16 ⟨p.2 % 16, by omega⟩ ⟨p.1 % 16, by omega⟩
    have hidxq : bit_duplication (q.2 % 16) ^^^ space_4 (q.1 % 16) < 256 :=
      index_lt_16 ⟨q.2 % 16, by omega⟩ ⟨q.1 % 16, by omega⟩
    rw [destAddr_eq, destAddr_eq]
    norm_num
    have hpad16 : elem * 16 * ((x + w - 1) / 16 + 1) ≤ dS := by
      simpa only [show (1 <<< 4 : Nat) = 16 from rfl] using hpad
    have hS : elem * (256 * ((x + w - 1) / 16 + 1)) ≤ 16 * dS := by
      calc elem * (256 * ((x + w - 1) / 16 + 1))
            = 16 * (elem * 16 * ((x + w - 1) / 16 + 1)) := by ring
        _ ≤ 16 * dS := Nat.mul_le_mul_left 16 hpad16
    have hform : ∀ pp : Nat × Nat,
        pp.2 / 16 * 16 * dS + elem * (pp.1 / 16 * 256
            + (bit_duplication (pp.2 % 16) ^^^ space_4 (pp.1 % 16)))
          = (pp.2 / 16) * (16 * dS) + elem * (pp.1 / 16 * 256
            + (bit_duplication (pp.2 % 16) ^^^ space_4 (pp.1 % 16))) := by
      intro pp
      ring
    rw [hform p, hform q]
    apply range_disjoint_of_layout (N := 256 * ((x + w - 1) / 16 + 1))
    · omega
    · omega
    · exact hS
    · rcases Nat.lt_trichotomy (p.2 / 16) (q.2 / 16) with hr | hr | hr
      · exact Or.inl hr
      · refine Or.inr (Or.inl ⟨hr, ?_⟩)
        intro heq
        by_cases hx16 : p.1 / 16 = q.1 / 16
        · rw [hx16] at heq
          have hidx : bit_duplication (p.2 % 16) ^^^ space_4 (p.1 % 16)
              = bit_duplication (q.2 % 16) ^^^ space_4 (q.1 % 16) := by omega
          obtain ⟨hy16, hx16'⟩ := index_inj_16 (by omega) (by omega) (by omega) (by omega) hidx
          omega
        · omega
      · exact Or.inr (Or.inr hr)

/-- With a linear stride of at least one row of elements, two distinct
pixels of the rectangle occupy disjoint `elem`-byte ranges of the linear
buffer. -/
lemma linAddr_disjoint (elem sS x y w' h' : Nat) (hpad : elem * w' ≤ sS)
    {p q : Nat × Nat}
    (hp : x ≤ p.1 ∧ p.1 < x + w' ∧ y ≤ p.2 ∧ p.2 < y + h')
    (hq : x ≤ q.1 ∧ q.1 < x + w' ∧ y ≤ q.2 ∧ q.2 < y + h')
    (hne : p ≠ q) :
    (p.2 - y) * sS + elem * (p.1 - x) + elem ≤ (q.2 - y) * sS + elem * (q.1 - x)
      ∨ (q.2 - y) * sS + elem * (q.1 - x) + elem ≤ (p.2 - y) * sS + elem * (p.1 - x) := by
  have hpq : p.1 ≠ q.1 ∨ p.2 ≠ q.2 := by
    by_contra hcon
    push_neg at hcon
    exact hne (Prod.ext hcon.1 hcon.2)
  apply range_disjoint_of_layout (N := w')
  · omega
  · omega
  · exact hpad
  · rcases Nat.lt_trichotomy (p.2 - y) (q.2 - y) with hr | hr | hr
    · exact Or.inl hr
    · exact Or.inr (Or.inl ⟨hr, by omega⟩)
    · exact Or.inr (Or.inr hr)

/-! ### Generic routine for compressed formats, and the load direction -/

/-- The generic routine in store direction for a block-compressed format:
block-unit conversion of `w`,`h`, tile shift 2, one atomic `elem`-byte copy
per block. -/
lemma generic_store_writes_c (desc : util_format_block) (elem : Nat)
    (helem : elem = 1 ∨ elem = 2 ∨ elem = 4 ∨ elem = 8 ∨ elem = 16)
    (hbits : desc.bits = 8 * elem) (hwid : desc.width > 1)
    (dstM srcM : Memory) (srcBase a b ww hh dS sS : Nat) :
    (panfrost_access_tiled_image_generic dstM srcM srcBase a b ww hh dS sS desc true).1
      = applyWrites elem srcM
          ((pixList a b (DIV_ROUND_UP ww desc.width) (DIV_ROUND_UP hh desc.height)).map
            (fun p => (destAddr elem 2 dS p, srcBase + (p.2 - b) * sS + elem * (p.1 - a))))
          dstM := by
  simp only [panfrost_access_tiled_image_generic]
  rw [if_pos hwid]
  rcases helem with rfl | rfl | rfl | rfl | rfl <;>
    · norm_num [tiled_unaligned_types, hbits]
      rw [tua_store_eq]
      try norm_num

/-- The generic routine in load direction for a non-compressed format. -/
lemma generic_load_writes_n (desc : util_format_block) (elem : Nat)
    (helem : elem = 1 ∨ elem = 2 ∨ elem = 4 ∨ elem = 8 ∨ elem = 16)
    (hbits : desc.bits = 8 * elem) (hwid : desc.width = 1)
    (dstM srcM : Memory) (srcBase a b ww hh dS sS : Nat) :
    panfrost_access_tiled_image_generic dstM srcM srcBase a b ww hh dS sS desc false
      = (dstM, applyWrites elem dstM ((pixList a b ww hh).map
          (fun p => (srcBase + (p.2 - b) * sS + elem * (p.1 - a), destAddr elem 4 dS p))) srcM) := by
  simp only [panfrost_access_tiled_image_generic, hwid, gt_iff_lt, Nat.lt_irrefl, if_false]
  rcases helem with rfl | rfl | rfl | rfl | rfl <;>
    · norm_num [tiled_unaligned_types, hbits]
      rw [tua_load_eq]
      try norm_num

/-- The generic routine in load direction for a block-compressed format. -/
lemma generic_load_writes_c (desc : util_format_block) (elem : Nat)
    (helem : elem = 1 ∨ elem = 2 ∨ elem = 4 ∨ elem = 8 ∨ elem = 16)
    (hbits : desc.bits = 8 * elem) (hwid : desc.width > 1)
    (dstM srcM : Memory) (srcBase a b ww hh dS sS : Nat) :
    panfrost_access_tiled_image_generic dstM srcM srcBase a b ww hh dS sS desc false
      = (dstM, applyWrites elem dstM
          ((pixList a b (DIV_ROUND_UP ww desc.width) (DIV_ROUND_UP hh desc.height)).map
            (fun p => (srcBase + (p.2 - b) * sS + elem * (p.1 - a), destAddr elem 2 dS p)))
          srcM) := by
  simp only [panfrost_access_tiled_image_generic]
  rw [if_pos hwid]
  rcases helem with rfl | rfl | rfl | rfl | rfl <;>
    · norm_num [tiled_unaligned_types, hbits]
      rw [tua_load_eq]
      try norm_num

/-- The public store entry point, for any recognized format, as one
write per pixel (or block) of the rectangle. -/
lemma panfrost_store_writes (desc : util_format_block) (elem : Nat)
    (helem : elem = 1 ∨ elem = 2 ∨ elem = 4 ∨ elem = 8 ∨ elem = 16)
    (hbits : desc.bits = 8 * elem) (hwpos : 0 < desc.width)
    (dstM srcM : Memory) (x y w h dS sS : Nat)
    (hxwB : x + blockW desc w ≤ 65536) (hxB : x < 65536) (hwB : blockW desc w < 65536)
    (hhB : blockH desc h < 65536) (hyhB : y + blockH desc h ≤ 65536) :
    ∃ pl : List (Nat × Nat),
      panfrost_store_tiled_image dstM srcM x y w h dS sS desc
        = applyWrites elem srcM (pl.map (storeWrite elem (tshiftOf desc) dS sS x y)) dstM
      ∧ ∀ p : Nat × Nat,
          p ∈ pl ↔ x ≤ p.1 ∧ p.1 < x + blockW desc w ∧ y ≤ p.2 ∧ p.2 < y + blockH desc h := by
  by_cases hw : desc.width > 1
  · have ht : tshiftOf desc = 2 := by simp [tshiftOf, hw]
    have hbW : blockW desc w = DIV_ROUND_UP w desc.width := by simp [blockW, hw]
    have hbH : blockH desc h = DIV_ROUND_UP h desc.height := by simp [blockH, hw]
    rw [ht, hbW, hbH]
    simp only [panfrost_store_tiled_image]
    rw [if_pos hw, generic_store_writes_c desc elem helem hbits hw]
    refine ⟨pixList x y (DIV_ROUND_UP w desc.width) (DIV_ROUND_UP h desc.height), ?_, ?_⟩
    · refine congrArg (fun L => applyWrites elem srcM L dstM) ?_
      apply List.map_congr_left
      intro p hp
      simp [storeWrite]
    · intro p
      simp only [mem_pixList]
  · have hw1 : desc.width = 1 := by omega
    have ht : tshiftOf desc = 4 := by simp [tshiftOf, hw]
    have hbW : blockW desc w = w := by simp [blockW, hw]
    have hbH : blockH desc h = h := by simp [blockH, hw]
    rw [ht, hbW, hbH]
    rw [hbW] at hxwB hwB
    rw [hbH] at hhB hyhB
    exact panfrost_store_writes_noncompressed desc elem helem hbits hw1 dstM srcM x y w h dS sS
      hxwB hxB hwB hhB hyhB

/-- The public load entry point as one write per pixel (or block) of the
rectangle: reads the tiled buffer `srcM`, writes the linear buffer `dstM`,
never splits the rectangle. -/
lemma panfrost_load_writes (desc : util_format_block) (elem : Nat)
    (helem : elem = 1 ∨ elem = 2 ∨ elem = 4 ∨ elem = 8 ∨ elem = 16)
    (hbits : desc.bits = 8 * elem) (hwpos : 0 < desc.width)
    (dstM srcM : Memory) (x y w h dS sS : Nat) :
    panfrost_load_tiled_image dstM srcM x y w h dS sS desc
      = applyWrites elem srcM ((pixList x y (blockW desc w) (blockH desc h)).map
          (fun p => ((p.2 - y) * dS + elem * (p.1 - x), destAddr elem (tshiftOf desc) sS p)))
          dstM := by
  by_cases hw : desc.width > 1
  · have ht : tshiftOf desc = 2 := by simp [tshiftOf, hw]
    have hbW : blockW desc w = DIV_ROUND_UP w desc.width := by simp [blockW, hw]
    have hbH : blockH desc h = DIV_ROUND_UP h desc.height := by simp [blockH, hw]
    rw [ht, hbW, hbH]
    simp only [panfrost_load_tiled_image]
    rw [generic_load_writes_c desc elem helem hbits hw]
    simp only [Nat.zero_add, zero_add]
  · have hw1 : desc.width = 1 := by omega
    have ht : tshiftOf desc = 4 := by simp [tshiftOf, hw]
    have hbW : blockW desc w = w := by simp [blockW, hw]
    have hbH : blockH desc h = h := by simp [blockH, hw]
    rw [ht, hbW, hbH]
    simp only [panfrost_load_tiled_image]
    rw [generic_load_writes_n desc elem helem hbits hw1]
    simp only [Nat.zero_add, zero_add]

/-! ### Gather characterization of store, and the round trip -/

lemma tshiftOf_cases (desc : util_format_block) : tshiftOf desc = 2 ∨ tshiftOf desc = 4 := by
  by_cases hw : desc.width > 1 <;> simp [tshiftOf, hw]

/-- After a store with a sufficiently padded destination stride, every
pixel's tiled byte range holds exactly its linear source bytes. -/
lemma panfrost_store_gather (desc : util_format_block) (elem : Nat)
    (helem : elem = 1 ∨ elem = 2 ∨ elem = 4 ∨ elem = 8 ∨ elem = 16)
    (hbits : desc.bits = 8 * elem) (hwpos : 0 < desc.width)
    (dstM srcM : Memory) (x y w h dS sS : Nat)
    (hxwB : x + blockW desc w ≤ 65536) (hxB : x < 65536) (hwB : blockW desc w < 65536)
    (hhB : blockH desc h < 65536) (hyhB : y + blockH desc h ≤ 65536)
    (hpad : elem * (1 <<< tshiftOf desc)
      * ((x + blockW desc w - 1) / (1 <<< tshiftOf desc) + 1) ≤ dS)
    {p : Nat × Nat}
    (hp : x ≤ p.1 ∧ p.1 < x + blockW desc w ∧ y ≤ p.2 ∧ p.2 < y + blockH desc h)
    {k : Nat} (hk : k < elem) :
    panfrost_store_tiled_image dstM srcM x y w h dS sS desc
        (destAddr elem (tshiftOf desc) dS p + k)
      = srcM ((p.2 - y) * sS + elem * (p.1 - x) + k) := by
  obtain ⟨pl, heq, hmem⟩ := panfrost_store_writes desc elem helem hbits hwpos dstM srcM
    x y w h dS sS hxwB hxB hwB hhB hyhB
  rw [heq]
  have hu : storeWrite elem (tshiftOf desc) dS sS x y p
      ∈ pl.map (storeWrite elem (tshiftOf desc) dS sS x y) :=
    List.mem_map_of_mem _ ((hmem p).mpr hp)
  have hcompat : ∀ v ∈ pl.map (storeWrite elem (tshiftOf desc) dS sS x y),
      v.1 < (storeWrite elem (tshiftOf desc) dS sS x y p).1 + elem
        ∧ (storeWrite elem (tshiftOf desc) dS sS x y p).1 < v.1 + elem
      → v = storeWrite elem (tshiftOf desc) dS sS x y p := by
    intro v hv hov
    obtain ⟨q, hq, rfl⟩ := List.mem_map.mp hv
    have hqr := (hmem q).mp hq
    by_cases hpq : q = p
    · rw [hpq]
    · exfalso
      have hdis := destAddr_disjoint elem (tshiftOf desc) dS x y (blockW desc w)
        (blockH desc h) (tshiftOf_cases desc) hpad hqr hp hpq
      simp only [storeWrite] at hov
      omega
  have hgoal := @applyWrites_mem elem srcM
    (List.map (storeWrite elem (tshiftOf desc) dS sS x y) pl) dstM
    (storeWrite elem (tshiftOf desc) dS sS x y p) k hu hk hcompat
  simpa only [storeWrite] using hgoal

/-- After storing a padded rectangle and loading it back with the same
geometry, every byte of every pixel of the rectangle returns to its
original value. -/
lemma round_trip_pixel (desc : util_format_block) (elem : Nat)
    (helem : elem = 1 ∨ elem = 2 ∨ elem = 4 ∨ elem = 8 ∨ elem = 16)
    (hbits : desc.bits = 8 * elem) (hwpos : 0 < desc.width)
    (tiled0 linear lin2 : Memory) (x y w h dS sS : Nat)
    (hxwB : x + blockW desc w ≤ 65536) (hxB : x < 65536) (hwB : blockW desc w < 65536)
    (hhB : blockH desc h < 65536) (hyhB : y + blockH desc h ≤ 65536)
    (hpadD : elem * (1 <<< tshiftOf desc)
      * ((x + blockW desc w - 1) / (1 <<< tshiftOf desc) + 1) ≤ dS)
    (hpadS : elem * blockW desc w ≤ sS)
    {p : Nat × Nat}
    (hp : x ≤ p.1 ∧ p.1 < x + blockW desc w ∧ y ≤ p.2 ∧ p.2 < y + blockH desc h)
    {k : Nat} (hk : k < elem) :
    panfrost_load_tiled_image lin2
        (panfrost_store_tiled_image tiled0 linear x y w h dS sS desc) x y w h sS dS desc
        ((p.2 - y) * sS + elem * (p.1 - x) + k)
      = linear ((p.2 - y) * sS + elem * (p.1 - x) + k) := by
  rw [panfrost_load_writes desc elem helem hbits hwpos]
  have hu : (((p.2 - y) * sS + elem * (p.1 - x), destAddr elem (tshiftOf desc) dS p))
      ∈ (pixList x y (blockW desc w) (blockH desc h)).map
        (fun p => ((p.2 - y) * sS + elem * (p.1 - x), destAddr elem (tshiftOf desc) dS p)) :=
    List.mem_map_of_mem _ (mem_pixList.mpr hp)
  have hcompat : ∀ v ∈ (pixList x y (blockW desc w) (blockH desc h)).map
      (fun p => ((p.2 - y) * sS + elem * (p.1 - x), destAddr elem (tshiftOf desc) dS p)),
      v.1 < ((p.2 - y) * sS + elem * (p.1 - x)) + elem
        ∧ ((p.2 - y) * sS + elem * (p.1 - x)) < v.1 + elem
      → v = (((p.2 - y) * sS + elem * (p.1 - x), destAddr elem (tshiftOf desc) dS p)) := by
    intro v hv hov
    obtain ⟨q, hq, rfl⟩ := List.mem_map.mp hv
    have hqr := mem_pixList.mp hq
    by_cases hpq : q = p
    · rw [hpq]
    · exfalso
      have hdis := linAddr_disjoint elem sS x y (blockW desc w) (blockH desc h) hpadS
        hqr hp hpq
      simp only at hov
      omega
  have hmem := @applyWrites_mem elem
    (panfrost_store_tiled_image tiled0 linear x y w h dS sS desc)
    ((pixList x y (blockW desc w) (blockH desc h)).map
      (fun p => ((p.2 - y) * sS + elem * (p.1 - x), destAddr elem (tshiftOf desc) dS p)))
    lin2 (((p.2 - y) * sS + elem * (p.1 - x), destAddr elem (tshiftOf desc) dS p)) k
    hu hk hcompat
  simp only at hmem
  rw [hmem]
  exact panfrost_store_gather desc elem helem hbits hwpos tiled0 linear x y w h dS sS
    hxwB hxB hwB hhB hyhB hpadD hp hk

/-- With a sufficiently padded destination stride, the splitter's
decomposition is equivalent to a single whole-rectangle invocation of the
generic routine. -/
lemma store_eq_generic_whole (desc : util_format_block) (elem : Nat)
    (helem : elem = 1 ∨ elem = 2 ∨ elem = 4 ∨ elem = 8 ∨ elem = 16)
    (hbits : desc.bits = 8 * elem) (hwid : desc.width = 1)
    (dstM srcM : Memory) (x y w h dS sS : Nat)
    (hpad : elem * 16 * ((x + w - 1) / 16 + 1) ≤ dS)
    (hxwB : x + w ≤ 65536) (hxB : x < 65536) (hwB : w < 65536) (hhB : h < 65536)
    (hyhB : y + h ≤ 65536) :
    panfrost_store_tiled_image dstM srcM x y w h dS sS desc
      = (panfrost_access_tiled_image_generic dstM srcM 0 x y w h dS sS desc true).1 := by
  have hpad' : elem * (1 <<< 4) * ((x + w - 1) / (1 <<< 4) + 1) ≤ dS := by
    simpa only [show (1 <<< 4 : Nat) = 16 from rfl] using hpad
  obtain ⟨pl, heq, hmem⟩ := panfrost_store_writes_noncompressed desc elem helem hbits hwid
    dstM srcM x y w h dS sS hxwB hxB hwB hhB hyhB
  rw [heq, generic_store_writes desc elem helem hbits hwid]
  have hRW : (pixList x y w h).map
      (fun p => (destAddr elem 4 dS p, 0 + (p.2 - y) * sS + elem * (p.1 - x)))
      = (pixList x y w h).map (storeWrite elem 4 dS sS x y) := by
    apply List.map_congr_left
    intro p hp
    simp [storeWrite]
  rw [hRW]
  apply applyWrites_eq_of_mem_iff
  · intro u
    simp only [List.mem_map]
    constructor
    · rintro ⟨q, hq, rfl⟩
      exact ⟨q, mem_pixList.mpr ((hmem q).mp hq), rfl⟩
    · rintro ⟨q, hq, rfl⟩
      exact ⟨q, (hmem q).mpr (mem_pixList.mp hq), rfl⟩
  · intro u hu v hv hov
    obtain ⟨qu, hqu, rfl⟩ := List.mem_map.mp hu
    obtain ⟨qv, hqv, rfl⟩ := List.mem_map.mp hv
    by_cases hpq : qv = qu
    · rw [hpq]
    · exfalso
      have h1 := (hmem qu).mp hqu
      have h2 := (hmem qv).mp hqv
      have hdis := destAddr_disjoint elem 4 dS x y w h (Or.inr rfl) hpad' h2 h1 hpq
      simp only [storeWrite] at hov
      omega

/-- The store direction never writes the linear source buffer. -/
lemma generic_store_snd (desc : util_format_block) (dstM srcM : Memory)
    (srcBase sx sy w h dS sS : Nat) :
    (panfrost_access_tiled_image_generic dstM srcM srcBase sx sy w h dS sS desc true).2
      = srcM := by
  simp only [panfrost_access_tiled_image_generic, tiled_unaligned_types]
  split_ifs <;> simp [tua_store_eq]

/-- The load direction never writes the tiled source buffer. -/
lemma generic_load_fst (desc : util_format_block) (dstM srcM : Memory)
    (srcBase sx sy w h dS sS : Nat) :
    (panfrost_access_tiled_image_generic dstM srcM srcBase sx sy w h dS sS desc false).1
      = dstM := by
  simp only [panfrost_access_tiled_image_generic, tiled_unaligned_types]
  split_ifs <;> simp [tua_load_eq]

/-! ### The splitter decomposition: disjointness, coverage, alignment -/

lemma store_decomposition_right_spec (lfx x y w h : Nat) (acc : List Rect)
    (hlfx16 : lfx % 16 = 0) (hx16 : x % 16 = 0) (hy16 : y % 16 = 0) (hh16 : h % 16 = 0)
    (hxl : x ≤ lfx) (hlxw : lfx ≤ x + w) :
    ∃ news : List Rect,
      (store_decomposition_right lfx x y w h acc).1 = acc ++ news
      ∧ (∀ p : Nat × Nat,
          (∃ r ∈ news ++ (store_decomposition_right lfx x y w h acc).2, inRect r p)
            ↔ inRect ⟨x, y, w, h⟩ p)
      ∧ List.Pairwise rectDisjoint (news ++ (store_decomposition_right lfx x y w h acc).2)
      ∧ ∀ r ∈ (store_decomposition_right lfx x y w h acc).2, rectAligned r := by
  by_cases hc : lfx ≠ x + w
  · have hd : store_decomposition_right lfx x y w h acc
        = (acc ++ [Rect.mk lfx y ((x + w) - lfx) h],
           [Rect.mk x y (w - ((x + w) - lfx)) h]) := by
      simp only [store_decomposition_right]
      rw [if_pos hc]
    rw [hd]
    refine ⟨[Rect.mk lfx y ((x + w) - lfx) h], rfl, ?_, ?_, ?_⟩
    · intro p
      simp only [List.cons_append, List.nil_append, List.mem_cons, List.not_mem_nil, or_false,
        exists_eq_or_imp, exists_eq_left, inRect]
      omega
    · simp only [List.cons_append, List.nil_append, List.pairwise_cons, List.mem_cons,
        List.not_mem_nil, or_false, List.Pairwise.nil]
      constructor
      · rintro r rfl p
        simp only [inRect]
        omega
      · simp [List.Pairwise]
    · intro r hr
      simp only [List.mem_singleton] at hr
      subst hr
      simp only [rectAligned]
      omega
  · have hd : store_decomposition_right lfx x y w h acc = (acc, [Rect.mk x y w h]) := by
      simp only [store_decomposition_right]
      rw [if_neg hc]
    rw [hd]
    refine ⟨[], by simp, ?_, ?_, ?_⟩
    · intro p
      simp only [List.nil_append, List.mem_singleton, exists_eq_left]
    · simp only [List.nil_append, List.pairwise_cons, List.not_mem_nil, List.Pairwise.nil]
      simp
    · intro r hr
      simp only [List.mem_singleton] at hr
      subst hr
      simp only [rectAligned]
      omega

lemma store_decomposition_left_spec (ffx lfx x y w h : Nat) (acc : List Rect)
    (hffx : ffx = DIV_ROUND_UP x 16 * 16) (hlfx : lfx = (x + w) / 16 * 16)
    (hy16 : y % 16 = 0) (hh16 : h % 16 = 0) :
    ∃ news : List Rect,
      (store_decomposition_left ffx lfx x y w h acc).1 = acc ++ news
      ∧ (∀ p : Nat × Nat,
          (∃ r ∈ news ++ (store_decomposition_left ffx lfx x y w h acc).2, inRect r p)
            ↔ inRect ⟨x, y, w, h⟩ p)
      ∧ List.Pairwise rectDisjoint (news ++ (store_decomposition_left ffx lfx x y w h acc).2)
      ∧ ∀ r ∈ (store_decomposition_left ffx lfx x y w h acc).2, rectAligned r := by
  have hfb : x ≤ ffx ∧ ffx < x + 16 ∧ ffx % 16 = 0 := by
    simp only [DIV_ROUND_UP] at hffx
    omega
  have hlb : lfx ≤ x + w ∧ x + w < lfx + 16 ∧ lfx % 16 = 0 := by omega
  by_cases hc : ffx ≠ x
  · by_cases hdw : min (ffx - x) w = w
    · have hd : store_decomposition_left ffx lfx x y w h acc
          = (acc ++ [Rect.mk x y w h], []) := by
        simp only [store_decomposition_left]
        rw [if_pos hc, if_pos hdw, hdw]
      rw [hd]
      refine ⟨[Rect.mk x y w h], rfl, ?_, ?_, ?_⟩
      · intro p
        simp only [List.append_nil, List.mem_singleton, exists_eq_left]
      · simp
      · intro r hr
        simp at hr
    · have hdist : min (ffx - x) w = ffx - x := by omega
      have hd : store_decomposition_left ffx lfx x y w h acc
          = store_decomposition_right lfx (x + (ffx - x)) y (w - (ffx - x)) h
              (acc ++ [Rect.mk x y (ffx - x) h]) := by
        simp only [store_decomposition_left]
        rw [if_pos hc, hdist, if_neg (by omega)]
      have hxe : x + (ffx - x) = ffx := by omega
      rw [hd, hxe]
      obtain ⟨news2, heq2, hun2, hpw2, hal2⟩ := store_decomposition_right_spec lfx ffx y
        (w - (ffx - x)) h (acc ++ [Rect.mk x y (ffx - x) h])
        (by omega) (by omega) hy16 hh16 (by omega) (by omega)
      refine ⟨Rect.mk x y (ffx - x) h :: news2, by rw [heq2]; simp, ?_, ?_, ?_⟩
      · intro p
        simp only [List.cons_append, List.mem_cons, exists_eq_or_imp]
        rw [hun2 p]
        simp only [inRect]
        omega
      · rw [List.cons_append, List.pairwise_cons]
        refine ⟨?_, hpw2⟩
        intro r hr p hcon
        have hsub := (hun2 p).mp ⟨r, hr, hcon.2⟩
        have hfirst := hcon.1
        simp only [inRect] at hsub hfirst
        omega
      · exact hal2
  · have hd : store_decomposition_left ffx lfx x y w h acc
        = store_decomposition_right lfx x y w h acc := by
      simp only [store_decomposition_left]
      rw [if_neg hc]
    rw [hd]
    exact store_decomposition_right_spec lfx x y w h acc (by omega) (by omega) hy16 hh16
      (by omega) (by omega)

lemma store_decomposition_bottom_spec (ffx lfx lfy x y w h : Nat) (acc : List Rect)
    (hffx : ffx = DIV_ROUND_UP x 16 * 16) (hlfx : lfx = (x + w) / 16 * 16)
    (hlfy : lfy = (y + h) / 16 * 16) (hy16 : y % 16 = 0) :
    ∃ news : List Rect,
      (store_decomposition_bottom ffx lfx lfy x y w h acc).1 = acc ++ news
      ∧ (∀ p : Nat × Nat,
          (∃ r ∈ news ++ (store_decomposition_bottom ffx lfx lfy x y w h acc).2, inRect r p)
            ↔ inRect ⟨x, y, w, h⟩ p)
      ∧ List.Pairwise rectDisjoint
          (news ++ (store_decomposition_bottom ffx lfx lfy x y w h acc).2)
      ∧ ∀ r ∈ (store_decomposition_bottom ffx lfx lfy x y w h acc).2, rectAligned r := by
  have hlb : lfy ≤ y + h ∧ y + h < lfy + 16 ∧ lfy % 16 = 0 ∧ y ≤ lfy := by omega
  by_cases hc : lfy ≠ y + h
  · have hd : store_decomposition_bottom ffx lfx lfy x y w h acc
        = store_decomposition_left ffx lfx x y w (h - ((y + h) - lfy))
            (acc ++ [Rect.mk x lfy w ((y + h) - lfy)]) := by
      simp only [store_decomposition_bottom]
      rw [if_pos hc]
    rw [hd]
    obtain ⟨news2, heq2, hun2, hpw2, hal2⟩ := store_decomposition_left_spec ffx lfx x y w
      (h - ((y + h) - lfy)) (acc ++ [Rect.mk x lfy w ((y + h) - lfy)])
      hffx hlfx hy16 (by omega)
    refine ⟨Rect.mk x lfy w ((y + h) - lfy) :: news2, by rw [heq2]; simp, ?_, ?_, ?_⟩
    · intro p
      simp only [List.cons_append, List.mem_cons, exists_eq_or_imp]
      rw [hun2 p]
      simp only [inRect]
      omega
    · rw [List.cons_append, List.pairwise_cons]
      refine ⟨?_, hpw2⟩
      intro r hr p hcon
      have hsub := (hun2 p).mp ⟨r, hr, hcon.2⟩
      have hfirst := hcon.1
      simp only [inRect] at hsub hfirst
      omega
    · exact hal2
  · have hd : store_decomposition_bottom ffx lfx lfy x y w h acc
        = store_decomposition_left ffx lfx x y w h acc := by
      simp only [store_decomposition_bottom]
      rw [if_neg hc]
    rw [hd]
    exact store_decomposition_left_spec ffx lfx x y w h acc hffx hlfx hy16 (by omega)

/-- The full splitter decomposition covers the rectangle exactly, with
pairwise disjoint sub-rectangles and a fully tile-aligned interior. -/
lemma store_decomposition_spec (x y w h : Nat) :
    (∀ p : Nat × Nat,
      (∃ r ∈ (store_decomposition x y w h).1 ++ (store_decomposition x y w h).2, inRect r p)
        ↔ inRect ⟨x, y, w, h⟩ p)
    ∧ List.Pairwise rectDisjoint
        ((store_decomposition x y w h).1 ++ (store_decomposition x y w h).2)
    ∧ ∀ r ∈ (store_decomposition x y w h).2, rectAligned r := by
  have hfy : y ≤ DIV_ROUND_UP y 16 * 16 ∧ DIV_ROUND_UP y 16 * 16 < y + 16
      ∧ DIV_ROUND_UP y 16 * 16 % 16 = 0 := by
    simp only [DIV_ROUND_UP]
    omega
  by_cases hcy : DIV_ROUND_UP y 16 * 16 ≠ y
  · by_cases hdh : min (DIV_ROUND_UP y 16 * 16 - y) h = h
    · have hd : store_decomposition x y w h = ([Rect.mk x y w h], []) := by
        simp only [store_decomposition, TILE_WIDTH, TILE_HEIGHT]
        rw [if_pos hcy, if_pos hdh, hdh]
      rw [hd]
      refine ⟨?_, ?_, ?_⟩
      · intro p
        simp only [List.append_nil, List.mem_singleton, exists_eq_left]
      · simp
      · intro r hr
        simp at hr
    · have hdist : min (DIV_ROUND_UP y 16 * 16 - y) h = DIV_ROUND_UP y 16 * 16 - y := by
        omega
      have hd : store_decomposition x y w h
          = store_decomposition_bottom (DIV_ROUND_UP x 16 * 16) ((x + w) / 16 * 16)
              ((y + h) / 16 * 16) x (y + (DIV_ROUND_UP y 16 * 16 - y)) w
              (h - (DIV_ROUND_UP y 16 * 16 - y))
              [Rect.mk x y w (DIV_ROUND_UP y 16 * 16 - y)] := by
        simp only [store_decomposition, TILE_WIDTH, TILE_HEIGHT]
        rw [if_pos hcy, hdist, if_neg (by omega)]
      have hye : y + (DIV_ROUND_UP y 16 * 16 - y) = DIV_ROUND_UP y 16 * 16 := by omega
      rw [hd, hye]
      obtain ⟨news2, heq2, hun2, hpw2, hal2⟩ := store_decomposition_bottom_spec
        (DIV_ROUND_UP x 16 * 16) ((x + w) / 16 * 16) ((y + h) / 16 * 16)
        x (DIV_ROUND_UP y 16 * 16) w (h - (DIV_ROUND_UP y 16 * 16 - y))
        [Rect.mk x y w (DIV_ROUND_UP y 16 * 16 - y)]
        rfl rfl (by omega) (by omega)
      rw [heq2]
      refine ⟨?_, ?_, ?_⟩
      · intro p
        simp only [List.singleton_append, List.cons_append, List.nil_append, List.mem_cons,
          exists_eq_or_imp]
        rw [hun2 p]
        simp only [inRect]
        omega
      · rw [List.singleton_append, List.cons_append, List.pairwise_cons]
        refine ⟨?_, hpw2⟩
        intro r hr p hcon
        have hsub := (hun2 p).mp ⟨r, hr, hcon.2⟩
        have hfirst := hcon.1
        simp only [inRect] at hsub hfirst
        omega
      · exact hal2
  · have hd : store_decomposition x y w h
        = store_decomposition_bottom (DIV_ROUND_UP x 16 * 16) ((x + w) / 16 * 16)
            ((y + h) / 16 * 16) x y w h [] := by
      simp only [store_decomposition, TILE_WIDTH, TILE_HEIGHT]
      rw [if_neg hcy]
    rw [hd]
    obtain ⟨news2, heq2, hun2, hpw2, hal2⟩ := store_decomposition_bottom_spec
      (DIV_ROUND_UP x 16 * 16) ((x + w) / 16 * 16) ((y + h) / 16 * 16)
      x y w h [] rfl rfl rfl (by omega)
    rw [heq2]
    simp only [List.nil_append]
    exact ⟨hun2, hpw2, hal2⟩

/-! ### Frame lemmas -/

lemma panfrost_store_frame (desc : util_format_block) (elem : Nat)
    (helem : elem = 1 ∨ elem = 2 ∨ elem = 4 ∨ elem = 8 ∨ elem = 16)
    (hbits : desc.bits = 8 * elem) (hwpos : 0 < desc.width)
    (dstM srcM : Memory) (x y w h dS sS : Nat)
    (hxwB : x + blockW desc w ≤ 65536) (hxB : x < 65536) (hwB : blockW desc w < 65536)
    (hhB : blockH desc h < 65536) (hyhB : y + blockH desc h ≤ 65536) (a : Nat)
    (ha : ¬ storeFootprint elem (tshiftOf desc) dS x y (blockW desc w) (blockH desc h) a) :
    panfrost_store_tiled_image dstM srcM x y w h dS sS desc a = dstM a := by
  obtain ⟨pl, heq, hmem⟩ := panfrost_store_writes desc elem helem hbits hwpos dstM srcM
    x y w h dS sS hxwB hxB hwB hhB hyhB
  rw [heq]
  apply applyWrites_notin
  intro u hu
  obtain ⟨q, hq, rfl⟩ := List.mem_map.mp hu
  simp only [storeWrite]
  by_contra hcon
  push_neg at hcon
  apply ha
  exact ⟨q, mem_pixList.mpr ((hmem q).mp hq), a - destAddr elem (tshiftOf desc) dS q,
    by omega, by omega⟩

lemma panfrost_load_frame (desc : util_format_block) (elem : Nat)
    (helem : elem = 1 ∨ elem = 2 ∨ elem = 4 ∨ elem = 8 ∨ elem = 16)
    (hbits : desc.bits = 8 * elem) (hwpos : 0 < desc.width)
    (dstM srcM : Memory) (x y w h dS sS : Nat) (a : Nat)
    (ha : ¬ loadFootprint elem x y (blockW desc w) (blockH desc h) dS a) :
    panfrost_load_tiled_image dstM srcM x y w h dS sS desc a = dstM a := by
  rw [panfrost_load_writes desc elem helem hbits hwpos]
  apply applyWrites_notin
  intro u hu
  obtain ⟨q, hq, rfl⟩ := List.mem_map.mp hu
  simp only
  by_contra hcon
  push_neg at hcon
  apply ha
  exact ⟨q, hq, a - ((q.2 - y) * dS + elem * (q.1 - x)), by omega, by omega⟩

/-! ### The claims -/

set_option maxRecDepth 40000 in
/-- C1, counterexample to the claim as frozen: at x=0, y=65520, w=16,
h=32, bpp=8, dst_stride=256, src_stride=16 (w,h positive, both buffers
amply padded for the rectangle: one tile column, 16 ≤ 256 and 16 ≤ 16),
the C fast path's `uint16_t block_y` wraps for rows y ≥ 65536, so the
store misplaces those rows to tile-row base 0 and the load (whose generic
path does not wrap) reads bytes the store never wrote: the loaded byte of
pixel (i=0, j=16) is 0, not the original linear byte 256. -/
theorem claim_C1_counterexample :
    ¬ (panfrost_load_tiled_image (fun _ => 0)
        (panfrost_store_tiled_image (fun _ => 0) (fun a => a) 0 65520 16 32 256 16 ⟨8, 1, 1⟩)
        0 65520 16 32 16 256 ⟨8, 1, 1⟩ (16 * 16 + 1 * 0 + 0)
      = (fun a => a) (16 * 16 + 1 * 0 + 0)) := by decide

/-- C1, amended: for every format (element size 8/16/32/64/128 bits,
including block-compressed), every rectangle with positive width and
height whose iterated units stay inside the `uint16_t` coordinate range
without the row index crossing 2^16 (x + w ≤ 65536 and y + h ≤ 65536 in
iterated units — below that boundary the fast path's `uint16_t`
truncations cannot fire), and every pair of sufficiently padded
non-overlapping buffers, storing a linear buffer with
`panfrost_store_tiled_image` and loading the resulting tiled buffer back
with `panfrost_load_tiled_image` over the same rectangle reproduces the
original linear pixel bytes byte-for-byte.  Sufficient padding: the tiled
stride accommodates every tile column the rectangle touches, and the
linear stride accommodates one full row of elements. -/
theorem claim_C1_round_trip (desc : util_format_block) (elem : Nat)
    (helem : elem = 1 ∨ elem = 2 ∨ elem = 4 ∨ elem = 8 ∨ elem = 16)
    (hbits : desc.bits = 8 * elem) (hwpos : 0 < desc.width)
    (tiled0 linear lin2 : Memory) (x y w h dS sS : Nat)
    (hw0 : 0 < w) (hh0 : 0 < h)
    (hxwB : x + blockW desc w ≤ 65536) (hxB : x < 65536) (hwB : blockW desc w < 65536)
    (hhB : blockH desc h < 65536) (hyhB : y + blockH desc h ≤ 65536)
    (hpadD : elem * (1 <<< tshiftOf desc)
      * ((x + blockW desc w - 1) / (1 <<< tshiftOf desc) + 1) ≤ dS)
    (hpadS : elem * blockW desc w ≤ sS) :
    ∀ i j k : Nat, i < blockW desc w → j < blockH desc h → k < elem →
      panfrost_load_tiled_image lin2
          (panfrost_store_tiled_image tiled0 linear x y w h dS sS desc)
          x y w h sS dS desc (j * sS + elem * i + k)
        = linear (j * sS + elem * i + k) := by
  intro i j k hi hj hk
  have h1 := round_trip_pixel desc elem helem hbits hwpos tiled0 linear lin2 x y w h dS sS
    hxwB hxB hwB hhB hyhB hpadD hpadS
    (p := (x + i, y + j)) ⟨by omega, by omega, by omega, by omega⟩ hk
  simpa [Nat.add_sub_cancel_left] using h1

theorem claim_C1_witness :
    panfrost_load_tiled_image (fun _ => 7)
        (panfrost_store_tiled_image (fun _ => 9) (fun a => a + 100) 1 2 3 2 64 12 ⟨32, 1, 1⟩)
        1 2 3 2 12 64 ⟨32, 1, 1⟩ (1 * 12 + 4 * 2 + 3)
      = (fun a => a + 100) (1 * 12 + 4 * 2 + 3) :=
  claim_C1_round_trip ⟨32, 1, 1⟩ 4 (by norm_num) (by norm_num) (by norm_num)
    (fun _ => 9) (fun a => a + 100) (fun _ => 7) 1 2 3 2 64 12
    (by norm_num) (by norm_num)
    (by decide) (by decide) (by decide) (by decide) (by decide)
    (by decide) (by decide)
    2 1 3 (by decide) (by decide) (by decide)

set_option maxRecDepth 40000 in
/-- C2, counterexample to the claim as frozen: at the 16-aligned,
`uint16_t`-representable rectangle sx=0, sy=65520, w=16, h=32 (bpp=8,
dst_stride=256, src_stride=16) the fast path's `uint16_t block_y` wraps to
0 for rows y ≥ 65536 and writes destination byte 0 (with source byte 256),
while the generic path's `unsigned block_y` does not wrap and leaves
destination byte 0 untouched, so the two routines do not write identical
bytes to identical addresses. -/
theorem claim_C2_counterexample :
    ¬ (panfrost_store_tiled_image_pixel 0 (fun _ => 0) (fun a => a) 0 0 65520 16 32 256 16
      = (panfrost_access_tiled_image_generic (fun _ => 0) (fun a => a) 0 0 65520 16 32 256 16
          ⟨8 * 2 ^ 0, 1, 1⟩ true).1) :=
  fun hcon => absurd (congrFun hcon 0) (by decide)

/-- C2, amended: for every rectangle whose x, y, w, h are all multiples of
16, whose coordinates are inside the `uint16_t` range and whose row index
never crosses 2^16 (sx, w, h < 65536 and sy + h ≤ 65536 — so the
`uint16_t` truncations of the fast path cannot fire), and every
non-compressed element size (`1 << shift` bytes, shift < 5), the
specialized fast-path store routine and the generic routine run in store
direction over the same rectangle produce identical destination buffers
(identical bytes at identical addresses), for every initial destination
buffer, source buffer and strides. -/
theorem claim_C2_fast_generic_equiv (shift : Nat) (dstM srcM : Memory)
    (srcBase sx sy w h dS sS : Nat) (hs : shift < 5)
    (hx : sx % 16 = 0) (hy : sy % 16 = 0) (hw : w % 16 = 0) (hh : h % 16 = 0)
    (hsxB : sx < 65536) (hwB : w < 65536) (hhB : h < 65536) (hsyh : sy + h ≤ 65536) :
    panfrost_store_tiled_image_pixel shift dstM srcM srcBase sx sy w h dS sS
      = (panfrost_access_tiled_image_generic dstM srcM srcBase sx sy w h dS sS
          ⟨8 * 2 ^ shift, 1, 1⟩ true).1 := by
  have helem : (2 : Nat) ^ shift = 1 ∨ (2 : Nat) ^ shift = 2 ∨ (2 : Nat) ^ shift = 4
      ∨ (2 : Nat) ^ shift = 8 ∨ (2 : Nat) ^ shift = 16 := by
    interval_cases shift <;> norm_num
  rw [fast_store_eq shift dstM srcM srcBase sx sy w h dS sS hx hw hsxB hwB hhB hsyh,
    generic_store_writes ⟨8 * 2 ^ shift, 1, 1⟩ (2 ^ shift) helem rfl rfl]
  simp only [Nat.shiftLeft_eq, one_mul]

theorem claim_C2_witness :
    panfrost_store_tiled_image_pixel 2 (fun _ => 0) (fun a => 3 * a) 5 16 0 16 32 300 130
      = (panfrost_access_tiled_image_generic (fun _ => 0) (fun a => 3 * a) 5 16 0 16 32 300 130
          ⟨8 * 2 ^ 2, 1, 1⟩ true).1 :=
  claim_C2_fast_generic_equiv 2 (fun _ => 0) (fun a => 3 * a) 5 16 0 16 32 300 130
    (by decide) (by decide) (by decide) (by decide) (by decide)
    (by decide) (by decide) (by decide) (by decide)

/-- C3, counterexample: as frozen, the claim quantifies over every
rectangle and every pair of strides, with no padding requirement.  With
`dst_stride = 0` the tile rows of the destination collapse onto each other
and the splitter (which visits the bottom strip before the left/right
columns) writes the colliding bytes in a different order than the
row-major whole-rectangle generic call, so the destinations differ:
at x=0, y=0, w=1, h=17, bpp=8, dst_stride=0, src_stride=1 byte 0 of the
destination ends as source byte 0 under the splitter but as source
byte 16 under the single generic call. -/
theorem claim_C3_counterexample :
    ¬ (panfrost_store_tiled_image (fun _ => 0) (fun a => a) 0 0 1 17 0 1 ⟨8, 1, 1⟩
        = (panfrost_access_tiled_image_generic (fun _ => 0) (fun a => a) 0 0 0 1 17 0 1
            ⟨8, 1, 1⟩ true).1) :=
  fun hcon => absurd (congrFun hcon 0) (by decide)

/-- C3, amended: for every non-compressed format and every rectangle,
provided (a) the destination stride is large enough to hold every tile
column the rectangle touches (`elem * 16 * ((x+w-1)/16 + 1) ≤ dst_stride`,
which holds for any destination buffer actually sized for the image) and
(b) the rectangle stays inside the `uint16_t` coordinate range of the fast
path without the row index crossing 2^16 (x + w ≤ 65536 and y + h ≤ 65536
— otherwise the fast path's `uint16_t block_y` truncation misplaces the
interior rows while the generic call does not wrap), the five-step
decomposition of `panfrost_store_tiled_image` produces a destination
identical to a single whole-rectangle invocation of
`panfrost_access_tiled_image_generic`. -/
theorem claim_C3_splitter_amended (desc : util_format_block) (elem : Nat)
    (helem : elem = 1 ∨ elem = 2 ∨ elem = 4 ∨ elem = 8 ∨ elem = 16)
    (hbits : desc.bits = 8 * elem) (hwid : desc.width = 1)
    (dstM srcM : Memory) (x y w h dS sS : Nat)
    (hpad : elem * 16 * ((x + w - 1) / 16 + 1) ≤ dS)
    (hxwB : x + w ≤ 65536) (hxB : x < 65536) (hwB : w < 65536) (hhB : h < 65536)
    (hyhB : y + h ≤ 65536) :
    panfrost_store_tiled_image dstM srcM x y w h dS sS desc
      = (panfrost_access_tiled_image_generic dstM srcM 0 x y w h dS sS desc true).1 :=
  store_eq_generic_whole desc elem helem hbits hwid dstM srcM x y w h dS sS hpad
    hxwB hxB hwB hhB hyhB

theorem claim_C3_witness :
    panfrost_store_tiled_image (fun _ => 1) (fun a => a + 2) 3 5 7 9 160 33 ⟨16, 1, 1⟩
      = (panfrost_access_tiled_image_generic (fun _ => 1) (fun a => a + 2) 0 3 5 7 9 160 33
          ⟨16, 1, 1⟩ true).1 :=
  claim_C3_splitter_amended ⟨16, 1, 1⟩ 2 (by norm_num) (by norm_num) rfl
    (fun _ => 1) (fun a => a + 2) 3 5 7 9 160 33 (by norm_num)
    (by decide) (by decide) (by decide) (by decide) (by decide)

/-- C4: for every element size and every coordinate pair, the tiled-side
address used by both the generic path (store and load) and the fast path
decomposes as a tile base plus the within-tile byte offset
`(bit_duplication(ly) XOR space_4(lx)) * elem` for the local coordinates
`ly = y mod 16`, `lx = x mod 16`; the fast path's shifted index
`(bit_duplication ly << shift) XOR (space_4 lx << shift)` is that same
offset; and for elem = 4 the pixel at local (3, 2) lands at byte 36. -/
theorem claim_C4_within_tile_offset :
    (∀ elem dS : Nat, ∀ p : Nat × Nat,
        destAddr elem 4 dS p
          = ((p.2 >>> 4) <<< 4) * dS + elem * 256 * (p.1 >>> 4)
            + (bit_duplication (p.2 % 16) ^^^ space_4 (p.1 % 16)) * elem)
    ∧ (∀ shift ly lx : Nat,
        (bit_duplication ly <<< shift) ^^^ (space_4 lx <<< shift)
          = (bit_duplication ly ^^^ space_4 lx) * (1 <<< shift))
    ∧ (bit_duplication 2 ^^^ space_4 3) * 4 = 36 := by
  refine ⟨?_, ?_, by decide⟩
  · intro elem dS p
    rw [destAddr_eq]
    simp only [Nat.shiftRight_eq_div_pow, Nat.shiftLeft_eq, one_mul]
    norm_num
    ring
  · intro shift ly lx
    rw [shiftLeft_xor_distrib, Nat.shiftLeft_eq, Nat.shiftLeft_eq]
    ring

/-- C5: for every nibble n, `bit_duplication n` is the 8-bit value that
duplicates bit i of n onto output bits 2i and 2i+1, and `space_4 n` is the
7-bit value that places bit i of n at output bit 2i with the alternate
bits zero. -/
theorem claim_C5_tables : ∀ n : Nat, n < 16 →
    bit_duplication n < 256 ∧ space_4 n < 128
    ∧ ∀ i : Nat, i < 4 →
        Nat.testBit (bit_duplication n) (2 * i) = Nat.testBit n i
        ∧ Nat.testBit (bit_duplication n) (2 * i + 1) = Nat.testBit n i
        ∧ Nat.testBit (space_4 n) (2 * i) = Nat.testBit n i
        ∧ Nat.testBit (space_4 n) (2 * i + 1) = false := by decide

theorem claim_C5_witness :
    bit_duplication 5 < 256
    ∧ Nat.testBit (bit_duplication 5) 3 = Nat.testBit 5 1
    ∧ Nat.testBit (space_4 5) 3 = false :=
  ⟨(claim_C5_tables 5 (by decide)).1,
   ((claim_C5_tables 5 (by decide)).2.2 1 (by decide)).2.1,
   ((claim_C5_tables 5 (by decide)).2.2 1 (by decide)).2.2.2⟩

/-- C6: for every format and rectangle, `panfrost_load_tiled_image` is
exactly one invocation of the generic routine over the whole rectangle
with the tiled and linear buffers (and their strides) swapped and the
direction flag set to load; no splitting or fast-path dispatch occurs. -/
theorem claim_C6_load_is_single_generic (dstM srcM : Memory) (x y w h dS sS : Nat)
    (desc : util_format_block) :
    panfrost_load_tiled_image dstM srcM x y w h dS sS desc
      = (panfrost_access_tiled_image_generic srcM dstM 0 x y w h sS dS desc false).2 := rfl

/-- C7: for every block-compressed format (block width > 1), the store
entry point performs no splitting and no fast-path dispatch: it is one
whole-rectangle generic call, and that call converts w and h to block
units by round-up division and copies each block as one atomic unit of its
native byte size at the coarser tile-shift-2 granularity. -/
theorem claim_C7_compressed (desc : util_format_block) (elem : Nat)
    (helem : elem = 1 ∨ elem = 2 ∨ elem = 4 ∨ elem = 8 ∨ elem = 16)
    (hbits : desc.bits = 8 * elem) (hwid : desc.width > 1)
    (dstM srcM : Memory) (x y w h dS sS : Nat) :
    panfrost_store_tiled_image dstM srcM x y w h dS sS desc
        = (panfrost_access_tiled_image_generic dstM srcM 0 x y w h dS sS desc true).1
    ∧ (panfrost_access_tiled_image_generic dstM srcM 0 x y w h dS sS desc true).1
        = applyWrites elem srcM
            ((pixList x y (DIV_ROUND_UP w desc.width) (DIV_ROUND_UP h desc.height)).map
              (fun p => (destAddr elem 2 dS p, (p.2 - y) * sS + elem * (p.1 - x)))) dstM := by
  constructor
  · simp only [panfrost_store_tiled_image]
    rw [if_pos hwid]
  · rw [generic_store_writes_c desc elem helem hbits hwid]
    refine congrArg (fun L => applyWrites elem srcM L dstM) ?_
    apply List.map_congr_left
    intro p hp
    simp

theorem claim_C7_witness :
    panfrost_store_tiled_image (fun _ => 0) (fun a => a) 2 3 9 10 64 24 ⟨64, 4, 4⟩
        = (panfrost_access_tiled_image_generic (fun _ => 0) (fun a => a) 0 2 3 9 10 64 24
            ⟨64, 4, 4⟩ true).1
    ∧ (panfrost_access_tiled_image_generic (fun _ => 0) (fun a => a) 0 2 3 9 10 64 24
          ⟨64, 4, 4⟩ true).1
        = applyWrites 8 (fun a => a)
            ((pixList 2 3 (DIV_ROUND_UP 9 (util_format_block.mk 64 4 4).width)
                (DIV_ROUND_UP 10 (util_format_block.mk 64 4 4).height)).map
              (fun p => (destAddr 8 2 64 p, (p.2 - 3) * 24 + 8 * (p.1 - 2)))) (fun _ => 0) :=
  claim_C7_compressed ⟨64, 4, 4⟩ 8 (by norm_num) (by norm_num) (by norm_num)
    (fun _ => 0) (fun a => a) 2 3 9 10 64 24

/-- C8: the sub-rectangles of the five-step decomposition performed by
`panfrost_store_tiled_image` for non-compressed formats (as captured by
`store_decomposition`, which mirrors the splitter's control flow) are
pairwise disjoint, their union is exactly the original rectangle, and the
rectangle handed to the fast-path interior always has x, y, w and h each a
multiple of 16. -/
theorem claim_C8_decomposition (x y w h : Nat) :
    (∀ p : Nat × Nat,
      (∃ r ∈ (store_decomposition x y w h).1 ++ (store_decomposition x y w h).2, inRect r p)
        ↔ inRect ⟨x, y, w, h⟩ p)
    ∧ List.Pairwise rectDisjoint
        ((store_decomposition x y w h).1 ++ (store_decomposition x y w h).2)
    ∧ ∀ r ∈ (store_decomposition x y w h).2, rectAligned r :=
  store_decomposition_spec x y w h

set_option maxRecDepth 40000 in
/-- C9, counterexample to the store-frame conjunct as frozen: at x=0,
y=65520, w=16, h=32, bpp=8, dst_stride=256, src_stride=16 the fast path's
`uint16_t block_y` wraps for rows y ≥ 65536 and the store writes
destination byte 0, yet every address of the rectangle's tiled footprint
is at least 65520 * 256 — so the store changes a byte outside the
footprint. -/
theorem claim_C9_counterexample :
    ¬ storeFootprint 1 (tshiftOf ⟨8, 1, 1⟩) 256 0 65520 (blockW ⟨8, 1, 1⟩ 16)
        (blockH ⟨8, 1, 1⟩ 32) 0
    ∧ panfrost_store_tiled_image (fun _ => 0) (fun a => a) 0 65520 16 32 256 16 ⟨8, 1, 1⟩ 0
        ≠ 0 := by
  constructor <;> decide

/-- C9, amended: provided the rectangle in iterated units stays inside the
fast path's `uint16_t` coordinate range without the row index crossing
2^16 (x + w ≤ 65536 and y + h ≤ 65536 in iterated units), the store
direction writes only tiled-layout byte locations belonging to the
rectangle's pixels (or blocks) and leaves every other destination byte
unchanged; unconditionally, the load direction writes only the linear byte
locations of the rectangle, and the generic routine never writes the
buffer acting as source for the current direction (the model performs no
allocation by construction). -/
theorem claim_C9_frame (desc : util_format_block) (elem : Nat)
    (helem : elem = 1 ∨ elem = 2 ∨ elem = 4 ∨ elem = 8 ∨ elem = 16)
    (hbits : desc.bits = 8 * elem) (hwpos : 0 < desc.width)
    (dstM srcM : Memory) (x y w h dS sS : Nat) :
    (x + blockW desc w ≤ 65536 → x < 65536 → blockW desc w < 65536 →
      blockH desc h < 65536 → y + blockH desc h ≤ 65536 →
      ∀ a : Nat,
      ¬ storeFootprint elem (tshiftOf desc) dS x y (blockW desc w) (blockH desc h) a →
        panfrost_store_tiled_image dstM srcM x y w h dS sS desc a = dstM a)
    ∧ (∀ a : Nat,
      ¬ loadFootprint elem x y (blockW desc w) (blockH desc h) dS a →
        panfrost_load_tiled_image dstM srcM x y w h dS sS desc a = dstM a)
    ∧ (panfrost_access_tiled_image_generic dstM srcM 0 x y w h dS sS desc true).2 = srcM
    ∧ (panfrost_access_tiled_image_generic dstM srcM 0 x y w h dS sS desc false).1 = dstM :=
  ⟨fun hxwB hxB hwB hhB hyhB a ha =>
    panfrost_store_frame desc elem helem hbits hwpos dstM srcM x y w h dS sS
      hxwB hxB hwB hhB hyhB a ha,
   fun a ha => panfrost_load_frame desc elem helem hbits hwpos dstM srcM x y w h dS sS a ha,
   generic_store_snd desc dstM srcM 0 x y w h dS sS,
   generic_load_fst desc dstM srcM 0 x y w h dS sS⟩

theorem claim_C9_witness :
    panfrost_store_tiled_image (fun _ => 3) (fun a => a) 0 0 1 1 16 1 ⟨8, 1, 1⟩ 5 = 3 :=
  (claim_C9_frame ⟨8, 1, 1⟩ 1 (by norm_num) (by norm_num) (by norm_num)
    (fun _ => 3) (fun a => a) 0 0 1 1 16 1).1
    (by decide) (by decide) (by decide) (by decide) (by decide) 5 (by decide)

/-- C10: the map (lx, ly) to `bit_duplication ly XOR space_4 lx` is a
bijection from the 256 within-tile coordinate pairs onto the element
offsets 0..255, so no two pixels of a tile share a tiled address. -/
theorem claim_C10_bijection :
    (∀ ly lx ly' lx' : Fin 16,
      bit_duplication ly.val ^^^ space_4 lx.val = bit_duplication ly'.val ^^^ space_4 lx'.val
        → ly = ly' ∧ lx = lx')
    ∧ (∀ v : Fin 256, ∃ ly lx : Fin 16, bit_duplication ly.val ^^^ space_4 lx.val = v.val)
    ∧ ∀ ly lx : Fin 16, bit_duplication ly.val ^^^ space_4 lx.val < 256 := by
  refine ⟨?_, ?_, index_lt_16⟩
  · intro ly lx ly' lx' heq
    obtain ⟨h1, h2⟩ := index_inj_16 ly.isLt lx.isLt ly'.isLt lx'.isLt heq
    exact ⟨Fin.ext h1, Fin.ext h2⟩
  · intro v
    obtain ⟨hy, hx, hveq⟩ := index_surj_16 v
    exact ⟨⟨yOfIndex v.val, hy⟩, ⟨xOfIndex v.val, hx⟩, hveq⟩

theorem claim_C10_witness :
    ((2 : Fin 16) = 2 ∧ (3 : Fin 16) = 3)
    ∧ ∃ ly lx : Fin 16, bit_duplication ly.val ^^^ space_4 lx.val = (9 : Fin 256).val :=
  ⟨claim_C10_bijection.1 2 3 2 3 rfl, claim_C10_bijection.2.1 9⟩
